import Mathlib

/-!
Verification development for the pymeleon rewrite-rule engine
(`language/rule.py`).

The Python module is shallowly embedded: the networkx `DiGraph` used by the
engine becomes an explicit structure of node and edge lists, every Python
`for` loop becomes a named recursive Lean function, and every Python
exception becomes a constructor of `PyError` threaded through `Except`.
Node allocations are modelled as natural-number identities carrying their
payload, so that two nodes are equal exactly when they are the same
allocation, and the sentinel vertex, the string `"root_node"` in the code,
is a separate constructor.
-/

deriving instance DecidableEq for Except

namespace Pymeleon

/-- Modelled from the spec: the `Node` class lives in `language/parser.py`,
which is not among the sources; per the data-model section a node is an
immutable allocation carrying a symbolic payload, and two nodes are never
equal unless they are the same allocation.  A vertex of a working graph is
either the sentinel string `"root_node"` or such a node, written as an
allocation identity paired with its payload. -/
inductive V : Type where
  | root : V
  | node : Nat → String → V
deriving DecidableEq, Repr

/-- The payload of a vertex (`Node.value` in Python); the sentinel has none,
and reading it would be an `AttributeError`. -/
def V.value : V → Option String
  | .root => none
  | .node _ s => some s

/-- A directed edge of a networkx `DiGraph` with its integer `order`
attribute. -/
structure Edge where
  src : V
  dst : V
  order : Int
deriving DecidableEq, Repr

/-- A networkx `DiGraph` whose edges carry an `order` attribute.  `nodes`
and `edges` are kept in insertion order, matching networkx iteration
order.  `touched` is bookkeeping that does not influence any operation: it
records the source vertex of every edge insertion, update or removal, so
that theorems can speak about the vertices whose out-edges an operation
left alone. -/
structure Digraph where
  nodes : List V
  edges : List Edge
  touched : List V
deriving DecidableEq, Repr

/-- Python exception kinds that the engine can raise.  `badGraph` is the
module's own `BadGraph` class; the others are built-in or networkx
exceptions. -/
inductive PyError : Type where
  | badGraph : PyError
  | keyError : PyError
  | networkxError : PyError
  | typeError : PyError
  | attributeError : PyError
  | recursionError : PyError
deriving DecidableEq, Repr

namespace Digraph

/-- `v in g` for nodes. -/
def hasNode (g : Digraph) (v : V) : Bool :=
  g.nodes.contains v

/-- `g.has_edge(u, v)`. -/
def hasEdge (g : Digraph) (u v : V) : Bool :=
  g.edges.any (fun e => decide (e.src = u) && decide (e.dst = v))

/-- `g.add_node(v)`: a no-op when the node is already present. -/
def addNode (g : Digraph) (v : V) : Digraph :=
  if g.hasNode v then g else { g with nodes := g.nodes ++ [v] }

/-- `g.add_edge(u, v, order=o)`: inserts missing endpoints, then inserts
the edge, or overwrites its `order` attribute when the edge exists. -/
def addEdge (g : Digraph) (u v : V) (o : Int) : Digraph :=
  let g1 := (g.addNode u).addNode v
  if g1.hasEdge u v then
    { g1 with
      edges := g1.edges.map
        (fun e => if decide (e.src = u) && decide (e.dst = v) then { e with order := o } else e),
      touched := g1.touched ++ [u] }
  else
    { g1 with edges := g1.edges ++ [⟨u, v, o⟩], touched := g1.touched ++ [u] }

/-- `g.remove_edge(u, v)`: raises a networkx error when the edge is
absent. -/
def removeEdge (g : Digraph) (u v : V) : Except PyError Digraph :=
  if g.hasEdge u v then
    .ok { g with
      edges := g.edges.filter (fun e => !(decide (e.src = u) && decide (e.dst = v))),
      touched := g.touched ++ [u] }
  else
    .error .networkxError

/-- `g.remove_node(v)`: removes the node and all incident edges; raises a
networkx error when the node is absent.  The source of every removed edge
is logged. -/
def removeNode (g : Digraph) (v : V) : Except PyError Digraph :=
  if g.hasNode v then
    .ok { nodes := g.nodes.filter (fun w => !(decide (w = v))),
          edges := g.edges.filter (fun e => !(decide (e.src = v) || decide (e.dst = v))),
          touched := g.touched ++
            (g.edges.filter (fun e => decide (e.src = v) || decide (e.dst = v))).map (·.src) }
  else
    .error .networkxError

/-- The out-edges of a vertex, in adjacency (insertion) order. -/
def outEdges (g : Digraph) (v : V) : List Edge :=
  g.edges.filter (fun e => decide (e.src = v))

/-- The in-edges of a vertex. -/
def inEdges (g : Digraph) (v : V) : List Edge :=
  g.edges.filter (fun e => decide (e.dst = v))

/-- The successor list of a vertex (pure form). -/
def succList (g : Digraph) (v : V) : List V :=
  (g.outEdges v).map (·.dst)

/-- The predecessor list of a vertex (pure form). -/
def predList (g : Digraph) (v : V) : List V :=
  (g.inEdges v).map (·.src)

/-- `g.out_degree(v)` (pure form). -/
def outDeg (g : Digraph) (v : V) : Nat :=
  (g.outEdges v).length

/-- `g.in_degree(v)` (pure form). -/
def inDeg (g : Digraph) (v : V) : Nat :=
  (g.inEdges v).length

/-- `g.successors(v)`: raises a networkx error when the node is absent. -/
def successorsE (g : Digraph) (v : V) : Except PyError (List V) :=
  if g.hasNode v then .ok (g.succList v) else .error .networkxError

/-- `g.predecessors(v)`: raises a networkx error when the node is
absent. -/
def predecessorsE (g : Digraph) (v : V) : Except PyError (List V) :=
  if g.hasNode v then .ok (g.predList v) else .error .networkxError

/-- `g.out_degree(v)`: raises a networkx error when the node is absent. -/
def outDegreeE (g : Digraph) (v : V) : Except PyError Nat :=
  if g.hasNode v then .ok (g.outDeg v) else .error .networkxError

/-- `g.in_degree(v)`: raises a networkx error when the node is absent. -/
def inDegreeE (g : Digraph) (v : V) : Except PyError Nat :=
  if g.hasNode v then .ok (g.inDeg v) else .error .networkxError

/-- `g.get_edge_data(u, v)["order"]` packaged as an option: `none` models
`get_edge_data` returning `None` (subscripting it is a `TypeError`). -/
def getEdgeData (g : Digraph) (u v : V) : Option Int :=
  (g.edges.find? (fun e => decide (e.src = u) && decide (e.dst = v))).map (·.order)

end Digraph

/-- Lookup in a Python `dict` represented as an association list with
distinct keys (first hit wins). -/
def alookup (l : List (V × V)) (k : V) : Option V :=
  (l.find? (fun p => decide (p.1 = k))).map (·.2)

/-- Lookup in a `dict` whose values are lists of nodes. -/
def alookupL (l : List (V × List V)) (k : V) : Option (List V) :=
  (l.find? (fun p => decide (p.1 = k))).map (·.2)

/-- `graph_in_node_dict[obj]` of `Rule._create_node_dict`: the dict is
built by iterating the non-root nodes in order with later entries
overwriting earlier ones, so a lookup returns the last non-root node
carrying the payload. -/
def lookupLastValue (ns : List V) (obj : String) : Option V :=
  (ns.filter (fun n => decide (n.value = some obj))).getLast?

/-- The two correspondence tables built by `Rule._create_node_dict`. -/
structure NodeDicts where
  nodeDict : List (V × List V)
  reverseNodeDict : List (V × V)
deriving DecidableEq, Repr

/-- The `for obj in common_obj` loop of `Rule._create_node_dict`.  For each
payload it collects the still unmatched output nodes carrying it, extends
both tables, and removes the collected nodes from the unmatched pool.  A
payload with no node in the input graph raises `KeyError`
(`graph_in_node_dict[obj]`). -/
def createNodeDictLoop (ins : List V) :
    List String → List (V × List V) → List (V × V) → List V → Except PyError NodeDicts
  | [], nd, rnd, _ => .ok ⟨nd, rnd⟩
  | obj :: rest, nd, rnd, unmatched =>
    match lookupLastValue ins obj with
    | none => .error .keyError
    | some key =>
      let objNodes := unmatched.filter (fun n => decide (n.value = some obj))
      createNodeDictLoop ins rest
        (nd ++ [(key, objNodes)])
        (rnd ++ objNodes.map (fun n => (n, key)))
        (unmatched.filter (fun n => !(decide (n.value = some obj))))

/-- `Rule._create_node_dict`.  The non-root input nodes are
`graphIn.nodes` without its first element (the code relies on the root
being inserted first); `objIn` and `objOut` model the parser's
`variables_constants` sets as duplicate-free lists, and `common_obj` is
their intersection.  Reading `.value` of the sentinel raises
`AttributeError`, which the code would hit while building
`graph_in_node_dict` if the sentinel appeared among the non-root input
nodes. -/
def createNodeDict (graphIn graphOut : Digraph) (objIn objOut : List String) :
    Except PyError NodeDicts :=
  let ins := graphIn.nodes.drop 1
  if ins.all (fun n => decide (n ≠ V.root)) then
    createNodeDictLoop ins (objIn.filter (fun o => decide (o ∈ objOut))) [] []
      (graphOut.nodes.drop 1)
  else
    .error .attributeError

/-- The `Rule` object: the two pattern graphs, the payload sets of their
parser objects, and the correspondence tables computed at
construction. -/
structure Rule where
  graphIn : Digraph
  graphOut : Digraph
  objIn : List String
  objOut : List String
  nodeDict : List (V × List V)
  reverseNodeDict : List (V × V)
deriving DecidableEq, Repr

/-- `Rule.__init__`: stores the parser data and runs
`_create_node_dict`. -/
def Rule.mk' (graphIn graphOut : Digraph) (objIn objOut : List String) :
    Except PyError Rule :=
  match createNodeDict graphIn graphOut objIn objOut with
  | .error e => .error e
  | .ok d => .ok ⟨graphIn, graphOut, objIn, objOut, d.nodeDict, d.reverseNodeDict⟩

/-- The mutable context that `apply` threads through its helpers:
`_cur_graph`, `_cur_node_dict`, and the allocation counter standing for
Python's supply of fresh `Node` objects. -/
structure ApplySt where
  graph : Digraph
  curNodeDict : List (V × List V)
  counter : Nat
deriving DecidableEq, Repr

/-- `self._cur_node_dict[key].append(v)` on the `defaultdict(list)`: an
absent key receives the one-element list. -/
def appendToKey (d : List (V × List V)) (k : V) (v : V) : List (V × List V) :=
  if (alookupL d k).isSome then
    d.map (fun p => if decide (p.1 = k) then (p.1, p.2 ++ [v]) else p)
  else
    d ++ [(k, [v])]

/-- The `for successor_node in self._graph_in.successors(node)` loop of
`Rule._remove_mapped_edges_rec`: for each input-pattern successor `s` of
`node`, remove the edge of the working graph that mirrors the pattern
edge (translating both endpoints through the match), then recurse into
`s` through the supplied continuation. -/
def removeMappedEdgesLoop (transform : List (V × V))
    (rec : V → Digraph → Except PyError Digraph) (node : V) :
    List V → Digraph → Except PyError Digraph
  | [], g => .ok g
  | s :: rest, g =>
    match alookup transform node with
    | none => .error .keyError
    | some tn =>
      match alookup transform s with
      | none => .error .keyError
      | some ts =>
        match g.removeEdge tn ts with
        | .error e => .error e
        | .ok g =>
          match rec s g with
          | .error e => .error e
          | .ok g => removeMappedEdgesLoop transform rec node rest g

/-- `Rule._remove_mapped_edges_rec`.  `fuel` bounds the recursion depth
the way Python's recursion limit does; exhausting it is a
`RecursionError`, which in Python happens exactly when the pattern graph
has a cycle reachable from the walk. -/
def removeMappedEdgesRec (r : Rule) (transform : List (V × V)) :
    Nat → V → Digraph → Except PyError Digraph
  | 0, _, _ => .error .recursionError
  | fuel + 1, node, g =>
    removeMappedEdgesLoop transform (removeMappedEdgesRec r transform fuel) node
      (r.graphIn.succList node) g

/-- `Rule._copy_output_node`: an output node with a correspondence is
copied with the payload of the matched target node
(`self._cur_transform_dict[reverse_node_dict[node]].value`) and recorded
in `_cur_node_dict` under the generic input-pattern node; any other output
node is copied with its own payload.  A correspondence whose input node is
missing from the match is a `KeyError`, and reading `.value` of the
sentinel is an `AttributeError`. -/
def copyOutputNode (r : Rule) (transform : List (V × V)) (st : ApplySt) (node : V) :
    Except PyError (V × ApplySt) :=
  match alookup r.reverseNodeDict node with
  | some inNode =>
    match alookup transform inNode with
    | none => .error .keyError
    | some target =>
      match target.value with
      | none => .error .attributeError
      | some tval =>
        .ok (V.node st.counter tval,
          { st with counter := st.counter + 1,
                    curNodeDict := appendToKey st.curNodeDict inNode (V.node st.counter tval) })
  | none =>
    match node.value with
    | none => .error .attributeError
    | some nval =>
      .ok (V.node st.counter nval, { st with counter := st.counter + 1 })

/-- The `for node in graph_out.successors(root_node)` loop of
`Rule._add_output_graph_rec`: copy every successor of the output-pattern
node, wire the copy under `nodeCopy` with the output pattern's own
`order`, and recurse below the copy through the supplied
continuation. -/
def addOutputGraphLoop (r : Rule) (transform : List (V × V))
    (rec : V → V → ApplySt → Except PyError ApplySt) (node nodeCopy : V) :
    List V → ApplySt → Except PyError ApplySt
  | [], st => .ok st
  | s :: rest, st =>
    match copyOutputNode r transform st s with
    | .error e => .error e
    | .ok (sCopy, st) =>
      match r.graphOut.getEdgeData node s with
      | none => .error .typeError
      | some o =>
        let st := { st with graph := st.graph.addEdge nodeCopy sCopy o }
        match rec s sCopy st with
        | .error e => .error e
        | .ok st => addOutputGraphLoop r transform rec node nodeCopy rest st

/-- `Rule._add_output_graph_rec`: walk the output pattern below `node`,
with `fuel` bounding the recursion depth as Python's recursion limit
does. -/
def addOutputGraphRec (r : Rule) (transform : List (V × V)) :
    Nat → V → V → ApplySt → Except PyError ApplySt
  | 0, _, _, _ => .error .recursionError
  | fuel + 1, node, nodeCopy, st =>
    addOutputGraphLoop r transform (addOutputGraphRec r transform fuel) node nodeCopy
      (r.graphOut.succList node) st

/-- The `for node in self._graph_out.successors("root_node")` loop of
`Rule._add_output_graph`: every top-level output node is copied, and only
a copy with no correspondence is wired under the sentinel, with
`order = -1`. -/
def addOutputGraphTopLoop (r : Rule) (transform : List (V × V)) :
    List V → ApplySt → Except PyError ApplySt
  | [], st => .ok st
  | node :: rest, st =>
    match copyOutputNode r transform st node with
    | .error e => .error e
    | .ok (nodeCopy, st) =>
      let st :=
        if (alookup r.reverseNodeDict node).isSome then st
        else { st with graph := st.graph.addEdge V.root nodeCopy (-1) }
      match addOutputGraphRec r transform (r.graphOut.nodes.length + 1) node nodeCopy st with
      | .error e => .error e
      | .ok st => addOutputGraphTopLoop r transform rest st

/-- `Rule._add_output_graph`: reset `_cur_node_dict`, then copy the output
pattern starting from the sentinel's successors. -/
def addOutputGraph (r : Rule) (transform : List (V × V)) (st : ApplySt) :
    Except PyError ApplySt :=
  match r.graphOut.successorsE V.root with
  | .error e => .error e
  | .ok succs => addOutputGraphTopLoop r transform succs { st with curNodeDict := [] }

/-- The per-edge form of the shift of lines 145-147 of `rule.py`: an
out-edge of `pre` whose `order` exceeds `c` has its `order` increased by
`k - 1`; every other edge is untouched. -/
def shiftEdge (pre : V) (c : Int) (k : Nat) (e : Edge) : Edge :=
  if decide (e.src = pre) && decide (e.order > c)
  then { e with order := e.order + (k : Int) - 1 } else e

/-- The shift of lines 145-147 of `rule.py` over the whole edge list.
This mutates edge data directly, so it is deliberately not recorded in
`touched`. -/
def shiftOrders (g : Digraph) (pre : V) (c : Int) (k : Nat) : Digraph :=
  { g with edges := g.edges.map (shiftEdge pre c k) }

/-- The `for i, node in enumerate(out_nodes)` loop of line 148-149:
insert one edge per output copy at orders `c`, `c+1`, ... -/
def addCopyEdges (g : Digraph) (pre : V) (c : Int) : List V → Digraph
  | [] => g
  | n :: rest => addCopyEdges (g.addEdge pre n c) pre (c + 1) rest

/-- The body of the `for pre_node in graph.predecessors(graph_node)` loop
(lines 140-149): a predecessor inside the match is skipped; otherwise the
sibling orders above the old edge's order are shifted and one edge per
output copy is inserted. -/
def reattachPredStep (ks : List V) (graphNode : V) (outNodes : List V)
    (g : Digraph) (pre : V) : Except PyError Digraph :=
  if decide (pre ∈ ks) then .ok g
  else
    match g.getEdgeData pre graphNode with
    | none => .error .typeError
    | some c => .ok (addCopyEdges (shiftOrders g pre c outNodes.length) pre c outNodes)

/-- The iteration of `reattachPredStep` over the predecessor snapshot. -/
def reattachPredLoop (ks : List V) (graphNode : V) (outNodes : List V) :
    List V → Digraph → Except PyError Digraph
  | [], g => .ok g
  | pre :: rest, g =>
    match reattachPredStep ks graphNode outNodes g pre with
    | .error e => .error e
    | .ok g => reattachPredLoop ks graphNode outNodes rest g

/-- The body of the `for suc_node in graph.successors(graph_node)` loop
(lines 150-153): a successor inside the match is skipped; otherwise every
output copy is wired to it with the old edge's `order`, looked up afresh
for each copy as the code does. -/
def reattachSuccStep (graphNode : V) (g : Digraph) (suc : V) :
    List V → Except PyError Digraph
  | [] => .ok g
  | n :: rest =>
    match g.getEdgeData graphNode suc with
    | none => .error .typeError
    | some o => reattachSuccStep graphNode (g.addEdge n suc o) suc rest

/-- The iteration of `reattachSuccStep` over the successor snapshot. -/
def reattachSuccLoop (ks : List V) (graphNode : V) (outNodes : List V) :
    List V → Digraph → Except PyError Digraph
  | [], g => .ok g
  | suc :: rest, g =>
    if decide (suc ∈ ks) then reattachSuccLoop ks graphNode outNodes rest g
    else
      match reattachSuccStep graphNode g suc outNodes with
      | .error e => .error e
      | .ok g => reattachSuccLoop ks graphNode outNodes rest g

/-- One iteration of the `for graph_node in reverse_transform_dict` loop
(lines 136-161).  `ks` is the key view of `reverse_transform_dict` (the
matched target nodes).  A target node found in `cur_node_dict` has its
boundary edges rerouted to its output copies and is removed; any other
matched node is removed only when its out-degree is zero and it has
in-degree zero or the sentinel among its predecessors. -/
def phase3Step (ks : List V) (cnd : List (V × List V)) (g : Digraph)
    (graphNode : V) : Except PyError Digraph :=
  match alookupL cnd graphNode with
  | some outNodes =>
    (match g.predecessorsE graphNode with
     | .error e => .error e
     | .ok preds =>
       match reattachPredLoop ks graphNode outNodes preds g with
       | .error e => .error e
       | .ok g =>
         match g.successorsE graphNode with
         | .error e => .error e
         | .ok succs =>
           match reattachSuccLoop ks graphNode outNodes succs g with
           | .error e => .error e
           | .ok g => g.removeNode graphNode)
  | none =>
    match g.outDegreeE graphNode with
    | .error e => .error e
    | .ok od =>
      if od = 0 then
        match g.inDegreeE graphNode with
        | .error e => .error e
        | .ok idg =>
          if idg = 0 then g.removeNode graphNode
          else
            match g.predecessorsE graphNode with
            | .error e => .error e
            | .ok preds =>
              if decide (V.root ∈ preds) then g.removeNode graphNode else .ok g
      else .ok g

/-- The `for graph_node in reverse_transform_dict` loop. -/
def phase3Loop (ks : List V) (cnd : List (V × List V)) :
    List V → Digraph → Except PyError Digraph
  | [], g => .ok g
  | v :: rest, g =>
    match phase3Step ks cnd g v with
    | .error e => .error e
    | .ok g => phase3Loop ks cnd rest g

/-- The `for in_node in self._graph_in.successors("root_node")` loop of
phase 1. -/
def phase1Loop (r : Rule) (transform : List (V × V)) :
    List V → Digraph → Except PyError Digraph
  | [], g => .ok g
  | n :: rest, g =>
    match removeMappedEdgesRec r transform (r.graphIn.nodes.length + 1) n g with
    | .error e => .error e
    | .ok g => phase1Loop r transform rest g

/-- `Rule.apply(graph, transform_node_dict, deepcopy_graph)`.

The result pairs the final state of the caller's graph with the Python
return value.  `transform` models the caller's `dict` as an association
list with distinct keys and values; the key view of
`reverse_transform_dict` is then the list of match images in insertion
order.  `counter` is the supply of fresh node allocations.

With `deepcopy_graph=True` the call raises `TypeError` at
`self._copy_apply_graph(graph)`: `_copy_apply_graph` is declared with the
single parameter `graph` (no `self`) and a `pass` body, so the bound call
passes two arguments to a one-parameter function.  Even if it were
callable, its `pass` body returns `None` and the tuple unpacking at line
123 would raise `TypeError` as well. -/
def Rule.applyRule (r : Rule) (g : Digraph) (transform : List (V × V))
    (deepcopyGraph : Bool) (counter : Nat) :
    Except PyError (Digraph × Option Digraph) :=
  let ks := transform.map (fun p => p.2)
  if deepcopyGraph then .error .typeError
  else
    match r.graphIn.successorsE V.root with
    | .error e => .error e
    | .ok inSuccs =>
      match phase1Loop r transform inSuccs g with
      | .error e => .error e
      | .ok g =>
        match addOutputGraph r transform ⟨g, [], counter⟩ with
        | .error e => .error e
        | .ok st =>
          match phase3Loop ks st.curNodeDict ks st.graph with
          | .error e => .error e
          | .ok g => .ok (g, none)

/-- One expansion step of the set of vertices known to be reachable. -/
def reachStep (g : Digraph) (acc : List V) : List V :=
  acc ++ (g.edges.filter (fun e => decide (e.src ∈ acc) && decide (e.dst ∉ acc))).map (·.dst)

/-- Iterated expansion; `g.nodes.length` rounds saturate. -/
def reachIter (g : Digraph) : Nat → List V → List V
  | 0, acc => acc
  | n + 1, acc => reachIter g n (reachStep g acc)

/-- Whether `v` is reachable from the sentinel root in `g`. -/
def reachable (g : Digraph) (v : V) : Bool :=
  decide (v ∈ reachIter g g.nodes.length [V.root])

/- Concrete pattern and target graphs used by witnesses, counterexamples
and failing inputs.  Pattern-node allocations use identities 1-9, output
pattern allocations 11-19, target-graph allocations 21-29, and the
allocation counter for `apply` starts at 100, so all fresh copies are
distinct from every pre-existing node. -/

/-- The trivial pattern graph: just the sentinel. -/
def gRootOnly : Digraph := ⟨[V.root], [], []⟩

/-- The trivial rule: both patterns are the bare sentinel, no payloads. -/
def ruleTrivial : Rule := ⟨gRootOnly, gRootOnly, [], [], [], []⟩

/-- A small target graph untouched by `ruleTrivial`: `root -5-> z -7-> w`. -/
def gZW : Digraph :=
  ⟨[V.root, V.node 1 "z", V.node 2 "w"],
   [⟨V.root, V.node 1 "z", 5⟩, ⟨V.node 1 "z", V.node 2 "w", 7⟩], []⟩

/-- Input pattern `{a}`: `root -> a`. -/
def giSingle : Digraph :=
  ⟨[V.root, V.node 1 "a"], [⟨V.root, V.node 1 "a", -1⟩], []⟩

/-- Output pattern using payload `a` twice: `root -> a`, `root -> a`. -/
def goTwice : Digraph :=
  ⟨[V.root, V.node 11 "a", V.node 12 "a"],
   [⟨V.root, V.node 11 "a", -1⟩, ⟨V.root, V.node 12 "a", -1⟩], []⟩

/-- The duplication rule `a => (a, a)` as `Rule.__init__` builds it. -/
def ruleTwice : Rule :=
  ⟨giSingle, goTwice, ["a"], ["a"],
   [(V.node 1 "a", [V.node 11 "a", V.node 12 "a"])],
   [(V.node 11 "a", V.node 1 "a"), (V.node 12 "a", V.node 1 "a")]⟩

/-- Duplication target: a single matched leaf under the root. -/
def gHello : Digraph :=
  ⟨[V.root, V.node 21 "hello"], [⟨V.root, V.node 21 "hello", 0⟩], []⟩

/-- Input pattern `F(a)`: `root -> F -> a`, `F` a function symbol. -/
def giCall : Digraph :=
  ⟨[V.root, V.node 2 "F", V.node 1 "a"],
   [⟨V.root, V.node 2 "F", -1⟩, ⟨V.node 2 "F", V.node 1 "a", 0⟩], []⟩

/-- Output pattern `a`: `root -> a`. -/
def goSingle : Digraph :=
  ⟨[V.root, V.node 11 "a"], [⟨V.root, V.node 11 "a", -1⟩], []⟩

/-- The projection rule `F(a) => a` as `Rule.__init__` builds it. -/
def ruleProj : Rule :=
  ⟨giCall, goSingle, ["a"], ["a"],
   [(V.node 1 "a", [V.node 11 "a"])],
   [(V.node 11 "a", V.node 1 "a")]⟩

/-- Reachability target `root -> F -> hello -> w`, everything reachable. -/
def gChain : Digraph :=
  ⟨[V.root, V.node 21 "F", V.node 22 "hello", V.node 23 "w"],
   [⟨V.root, V.node 21 "F", -1⟩, ⟨V.node 21 "F", V.node 22 "hello", 0⟩,
    ⟨V.node 22 "hello", V.node 23 "w", 0⟩], []⟩

/-- Input pattern `{a, b}`: `root -> a`, `root -> b`. -/
def giPair : Digraph :=
  ⟨[V.root, V.node 1 "a", V.node 2 "b"],
   [⟨V.root, V.node 1 "a", -1⟩, ⟨V.root, V.node 2 "b", -1⟩], []⟩

/-- The dropped-binding rule `{a, b} => a` as `Rule.__init__` builds it. -/
def ruleDrop : Rule :=
  ⟨giPair, goSingle, ["a", "b"], ["a"],
   [(V.node 1 "a", [V.node 11 "a"])],
   [(V.node 11 "a", V.node 1 "a")]⟩

/-- Orphan-collection target: `root -0-> x`, `root -1-> p`, `root -2-> q`,
`q -0-> p`; the matched node `p` has out-degree zero and the two
predecessors `root` and `q`. -/
def gOrphan : Digraph :=
  ⟨[V.root, V.node 21 "hello", V.node 22 "banana", V.node 23 "q"],
   [⟨V.root, V.node 21 "hello", 0⟩, ⟨V.root, V.node 22 "banana", 1⟩,
    ⟨V.root, V.node 23 "q", 2⟩, ⟨V.node 23 "q", V.node 22 "banana", 0⟩], []⟩

/-- What applying `ruleProj` to `gChain` leaves behind: the matched
middle node and its successor survive with no path from the root. -/
def gChainRes : Digraph :=
  ⟨[V.root, V.node 22 "hello", V.node 23 "w"],
   [⟨V.node 22 "hello", V.node 23 "w", 0⟩], [V.node 21 "F", V.root]⟩

/-- Input pattern with the payload `a` on two distinct nodes:
`root -> a`, `root -> a`. -/
def giDup : Digraph :=
  ⟨[V.root, V.node 1 "a", V.node 2 "a"],
   [⟨V.root, V.node 1 "a", -1⟩, ⟨V.root, V.node 2 "a", -1⟩], []⟩

/-- A target for the sibling-order theorem: `root` has children `t` and
`u` with orders 0 and 1, and `t -3-> u`. -/
def gSibs : Digraph :=
  ⟨[V.root, V.node 1 "t", V.node 2 "u"],
   [⟨V.root, V.node 1 "t", 0⟩, ⟨V.root, V.node 2 "u", 1⟩,
    ⟨V.node 1 "t", V.node 2 "u", 3⟩], []⟩

/-- Pure companion of `createNodeDictLoop`: the `node_dict` entries the
loop appends for the given payload list and unmatched pool (empty from
the point where a missing payload would raise). -/
def loopPairs (ins : List V) : List String → List V → List (V × List V)
  | [], _ => []
  | o :: rest, un =>
    match lookupLastValue ins o with
    | none => []
    | some key =>
      (key, un.filter (fun n => decide (n.value = some o))) ::
        loopPairs ins rest (un.filter (fun n => !(decide (n.value = some o))))

/-- Pure companion of `createNodeDictLoop` for the `reverse_node_dict`
entries. -/
def loopRev (ins : List V) : List String → List V → List (V × V)
  | [], _ => []
  | o :: rest, un =>
    match lookupLastValue ins o with
    | none => []
    | some key =>
      (un.filter (fun n => decide (n.value = some o))).map (fun n => (n, key)) ++
        loopRev ins rest (un.filter (fun n => !(decide (n.value = some o))))

/-- The edges the `for i, node in enumerate(out_nodes)` loop of lines
148-149 inserts: one edge per copy at orders `c`, `c+1`, ... -/
def copyEdgeList (pre : V) (c : Int) : List V → List Edge
  | [] => []
  | n :: rest => ⟨pre, n, c⟩ :: copyEdgeList pre (c + 1) rest

/-- Two fresh copies used by the sibling-order witness. -/
def copyPair : List V := [V.node 50 "x", V.node 51 "y"]

/-- `g'` preserves the out-edges of every vertex that its log does not
touch: an untouched vertex was already untouched in `g` and keeps its
out-edge list, orders included. -/
def Pres (g g' : Digraph) : Prop :=
  ∀ v : V, v ∉ g'.touched → v ∉ g.touched ∧ g'.outEdges v = g.outEdges v

/-- Decides the `BadGraph` error outcome; "never raises `BadGraph`" is
stated through this Boolean to keep the statements hypothesis-free. -/
def isBG {α : Type} : Except PyError α → Bool
  | .error .badGraph => true
  | _ => false

/-! ### Theorems -/

/-- Converts the disequality form of "never BadGraph" into the Boolean
form. -/
theorem isBG_eq_false {α : Type} {x : Except PyError α}
    (h : x ≠ .error .badGraph) : isBG x = false := by
  cases x with
  | ok a => rfl
  | error e => cases e <;> first | rfl | exact absurd rfl h

/-- Error-propagation helper: a function that never produces `BadGraph`
keeps that property when its error is re-raised. -/
theorem err_ne_bg {α β : Type} {x : Except PyError α} {e : PyError}
    (hx : x ≠ .error .badGraph) (h : x = .error e) :
    (Except.error e : Except PyError β) ≠ .error .badGraph := by
  intro hh
  injection hh with hh
  subst hh
  exact hx h

theorem removeEdge_ne_bg (g : Digraph) (u v : V) :
    g.removeEdge u v ≠ .error .badGraph := by
  unfold Digraph.removeEdge; split <;> simp

theorem removeNode_ne_bg (g : Digraph) (v : V) :
    g.removeNode v ≠ .error .badGraph := by
  unfold Digraph.removeNode; split <;> simp

theorem successorsE_ne_bg (g : Digraph) (v : V) :
    g.successorsE v ≠ .error .badGraph := by
  unfold Digraph.successorsE; split <;> simp

theorem predecessorsE_ne_bg (g : Digraph) (v : V) :
    g.predecessorsE v ≠ .error .badGraph := by
  unfold Digraph.predecessorsE; split <;> simp

theorem outDegreeE_ne_bg (g : Digraph) (v : V) :
    g.outDegreeE v ≠ .error .badGraph := by
  unfold Digraph.outDegreeE; split <;> simp

theorem inDegreeE_ne_bg (g : Digraph) (v : V) :
    g.inDegreeE v ≠ .error .badGraph := by
  unfold Digraph.inDegreeE; split <;> simp

theorem createNodeDictLoop_ne_bg (ins : List V) :
    ∀ (objs : List String) (nd : List (V × List V)) (rnd : List (V × V)) (un : List V),
      createNodeDictLoop ins objs nd rnd un ≠ .error .badGraph := by
  intro objs
  induction objs with
  | nil => intro nd rnd un; simp [createNodeDictLoop]
  | cons o rest ih =>
    intro nd rnd un
    simp only [createNodeDictLoop]
    cases lookupLastValue ins o with
    | none => simp
    | some key => dsimp only; exact ih _ _ _

theorem createNodeDict_ne_bg (gi go : Digraph) (oi oo : List String) :
    createNodeDict gi go oi oo ≠ .error .badGraph := by
  simp only [createNodeDict]
  split
  · exact createNodeDictLoop_ne_bg _ _ _ _ _
  · simp

theorem mkRule_ne_bg (gi go : Digraph) (oi oo : List String) :
    Rule.mk' gi go oi oo ≠ .error .badGraph := by
  unfold Rule.mk'
  cases h : createNodeDict gi go oi oo with
  | error e => dsimp only; exact err_ne_bg (createNodeDict_ne_bg gi go oi oo) h
  | ok d => simp

theorem copyOutputNode_ne_bg (r : Rule) (t : List (V × V)) (st : ApplySt) (node : V) :
    copyOutputNode r t st node ≠ .error .badGraph := by
  unfold copyOutputNode
  cases alookup r.reverseNodeDict node with
  | some inNode =>
    dsimp only
    cases alookup t inNode with
    | none => simp
    | some target =>
      dsimp only
      cases target.value with
      | none => simp
      | some tval => simp
  | none =>
    dsimp only
    cases node.value with
    | none => simp
    | some nval => simp

theorem removeMappedEdgesLoop_ne_bg (t : List (V × V))
    (rec : V → Digraph → Except PyError Digraph)
    (hrec : ∀ s g, rec s g ≠ .error .badGraph) (node : V) :
    ∀ (l : List V) (g : Digraph),
      removeMappedEdgesLoop t rec node l g ≠ .error .badGraph := by
  intro l
  induction l with
  | nil => intro g; simp [removeMappedEdgesLoop]
  | cons s rest ih =>
    intro g
    simp only [removeMappedEdgesLoop]
    cases alookup t node with
    | none => simp
    | some tn =>
      dsimp only
      cases alookup t s with
      | none => simp
      | some ts =>
        dsimp only
        cases hre : g.removeEdge tn ts with
        | error e => dsimp only; exact err_ne_bg (removeEdge_ne_bg g tn ts) hre
        | ok g2 =>
          dsimp only
          cases hrc : rec s g2 with
          | error e => dsimp only; exact err_ne_bg (hrec s g2) hrc
          | ok g3 => dsimp only; exact ih g3

theorem removeMappedEdgesRec_ne_bg (r : Rule) (t : List (V × V)) :
    ∀ (fuel : Nat) (node : V) (g : Digraph),
      removeMappedEdgesRec r t fuel node g ≠ .error .badGraph := by
  intro fuel
  induction fuel with
  | zero => intro node g; simp [removeMappedEdgesRec]
  | succ n ih =>
    intro node g
    simp only [removeMappedEdgesRec]
    exact removeMappedEdgesLoop_ne_bg t _ (fun s g2 => ih s g2) node _ g

theorem phase1Loop_ne_bg (r : Rule) (t : List (V × V)) :
    ∀ (l : List V) (g : Digraph), phase1Loop r t l g ≠ .error .badGraph := by
  intro l
  induction l with
  | nil => intro g; simp [phase1Loop]
  | cons n rest ih =>
    intro g
    simp only [phase1Loop]
    cases hrm : removeMappedEdgesRec r t (r.graphIn.nodes.length + 1) n g with
    | error e => dsimp only; exact err_ne_bg (removeMappedEdgesRec_ne_bg r t _ n g) hrm
    | ok g2 => dsimp only; exact ih g2

theorem addOutputGraphLoop_ne_bg (r : Rule) (t : List (V × V))
    (rec : V → V → ApplySt → Except PyError ApplySt)
    (hrec : ∀ s sc st, rec s sc st ≠ .error .badGraph) (node nodeCopy : V) :
    ∀ (l : List V) (st : ApplySt),
      addOutputGraphLoop r t rec node nodeCopy l st ≠ .error .badGraph := by
  intro l
  induction l with
  | nil => intro st; simp [addOutputGraphLoop]
  | cons s rest ih =>
    intro st
    simp only [addOutputGraphLoop]
    cases hcp : copyOutputNode r t st s with
    | error e => dsimp only; exact err_ne_bg (copyOutputNode_ne_bg r t st s) hcp
    | ok pr =>
      dsimp only
      cases pr with
      | mk sCopy st1 =>
        dsimp only
        cases r.graphOut.getEdgeData node s with
        | none => simp
        | some o =>
          dsimp only
          cases hrc : rec s sCopy { st1 with graph := st1.graph.addEdge nodeCopy sCopy o } with
          | error e => dsimp only; exact err_ne_bg (hrec _ _ _) hrc
          | ok st2 => dsimp only; exact ih st2

theorem addOutputGraphRec_ne_bg (r : Rule) (t : List (V × V)) :
    ∀ (fuel : Nat) (node nodeCopy : V) (st : ApplySt),
      addOutputGraphRec r t fuel node nodeCopy st ≠ .error .badGraph := by
  intro fuel
  induction fuel with
  | zero => intro node nodeCopy st; simp [addOutputGraphRec]
  | succ n ih =>
    intro node nodeCopy st
    simp only [addOutputGraphRec]
    exact addOutputGraphLoop_ne_bg r t _ (fun s sc st2 => ih s sc st2) node nodeCopy _ st

theorem addOutputGraphTopLoop_ne_bg (r : Rule) (t : List (V × V)) :
    ∀ (l : List V) (st : ApplySt),
      addOutputGraphTopLoop r t l st ≠ .error .badGraph := by
  intro l
  induction l with
  | nil => intro st; simp [addOutputGraphTopLoop]
  | cons nd rest ih =>
    intro st
    simp only [addOutputGraphTopLoop]
    cases hcp : copyOutputNode r t st nd with
    | error e => dsimp only; exact err_ne_bg (copyOutputNode_ne_bg r t st nd) hcp
    | ok pr =>
      dsimp only
      cases pr with
      | mk nodeCopy st1 =>
        dsimp only
        cases hrc : addOutputGraphRec r t (r.graphOut.nodes.length + 1) nd nodeCopy
            (if (alookup r.reverseNodeDict nd).isSome then st1
             else { st1 with graph := st1.graph.addEdge V.root nodeCopy (-1) }) with
        | error e => dsimp only; exact err_ne_bg (addOutputGraphRec_ne_bg r t _ nd nodeCopy _) hrc
        | ok st2 => dsimp only; exact ih st2

theorem addOutputGraph_ne_bg (r : Rule) (t : List (V × V)) (st : ApplySt) :
    addOutputGraph r t st ≠ .error .badGraph := by
  unfold addOutputGraph
  cases hs : r.graphOut.successorsE V.root with
  | error e => dsimp only; exact err_ne_bg (successorsE_ne_bg r.graphOut V.root) hs
  | ok succs => dsimp only; exact addOutputGraphTopLoop_ne_bg r t succs _

theorem reattachPredStep_ne_bg (ks : List V) (gn : V) (outs : List V)
    (g : Digraph) (pre : V) :
    reattachPredStep ks gn outs g pre ≠ .error .badGraph := by
  unfold reattachPredStep
  split
  · simp
  · cases g.getEdgeData pre gn with
    | none => simp
    | some c => simp

theorem reattachPredLoop_ne_bg (ks : List V) (gn : V) (outs : List V) :
    ∀ (l : List V) (g : Digraph),
      reattachPredLoop ks gn outs l g ≠ .error .badGraph := by
  intro l
  induction l with
  | nil => intro g; simp [reattachPredLoop]
  | cons pre rest ih =>
    intro g
    simp only [reattachPredLoop]
    cases hst : reattachPredStep ks gn outs g pre with
    | error e => dsimp only; exact err_ne_bg (reattachPredStep_ne_bg ks gn outs g pre) hst
    | ok g2 => dsimp only; exact ih g2

theorem reattachSuccStep_ne_bg (gn : V) (suc : V) :
    ∀ (l : List V) (g : Digraph),
      reattachSuccStep gn g suc l ≠ .error .badGraph := by
  intro l
  induction l with
  | nil => intro g; simp [reattachSuccStep]
  | cons n rest ih =>
    intro g
    simp only [reattachSuccStep]
    cases g.getEdgeData gn suc with
    | none => simp
    | some o => dsimp only; exact ih _

theorem reattachSuccLoop_ne_bg (ks : List V) (gn : V) (outs : List V) :
    ∀ (l : List V) (g : Digraph),
      reattachSuccLoop ks gn outs l g ≠ .error .badGraph := by
  intro l
  induction l with
  | nil => intro g; simp [reattachSuccLoop]
  | cons suc rest ih =>
    intro g
    simp only [reattachSuccLoop]
    split
    · exact ih g
    · cases hst : reattachSuccStep gn g suc outs with
      | error e => dsimp only; exact err_ne_bg (reattachSuccStep_ne_bg gn suc outs g) hst
      | ok g2 => dsimp only; exact ih g2

theorem phase3Step_ne_bg (ks : List V) (cnd : List (V × List V))
    (g : Digraph) (gn : V) : phase3Step ks cnd g gn ≠ .error .badGraph := by
  unfold phase3Step
  cases alookupL cnd gn with
  | some outs =>
    dsimp only
    cases hp : g.predecessorsE gn with
    | error e => dsimp only; exact err_ne_bg (predecessorsE_ne_bg g gn) hp
    | ok preds =>
      dsimp only
      cases hpl : reattachPredLoop ks gn outs preds g with
      | error e => dsimp only; exact err_ne_bg (reattachPredLoop_ne_bg ks gn outs preds g) hpl
      | ok g2 =>
        dsimp only
        cases hs : g2.successorsE gn with
        | error e => dsimp only; exact err_ne_bg (successorsE_ne_bg g2 gn) hs
        | ok succs =>
          dsimp only
          cases hsl : reattachSuccLoop ks gn outs succs g2 with
          | error e => dsimp only; exact err_ne_bg (reattachSuccLoop_ne_bg ks gn outs succs g2) hsl
          | ok g3 => dsimp only; exact removeNode_ne_bg g3 gn
  | none =>
    dsimp only
    cases hod : g.outDegreeE gn with
    | error e => dsimp only; exact err_ne_bg (outDegreeE_ne_bg g gn) hod
    | ok od =>
      dsimp only
      split
      · cases hid : g.inDegreeE gn with
        | error e => dsimp only; exact err_ne_bg (inDegreeE_ne_bg g gn) hid
        | ok idg =>
          dsimp only
          split
          · exact removeNode_ne_bg g gn
          · cases hp : g.predecessorsE gn with
            | error e => dsimp only; exact err_ne_bg (predecessorsE_ne_bg g gn) hp
            | ok preds =>
              dsimp only
              split
              · exact removeNode_ne_bg g gn
              · simp
      · simp

theorem phase3Loop_ne_bg (ks : List V) (cnd : List (V × List V)) :
    ∀ (l : List V) (g : Digraph), phase3Loop ks cnd l g ≠ .error .badGraph := by
  intro l
  induction l with
  | nil => intro g; simp [phase3Loop]
  | cons v rest ih =>
    intro g
    simp only [phase3Loop]
    cases hst : phase3Step ks cnd g v with
    | error e => dsimp only; exact err_ne_bg (phase3Step_ne_bg ks cnd g v) hst
    | ok g2 => dsimp only; exact ih g2

theorem applyRule_ne_bg (r : Rule) (g : Digraph) (t : List (V × V))
    (dc : Bool) (c : Nat) : r.applyRule g t dc c ≠ .error .badGraph := by
  simp only [Rule.applyRule]
  split
  · simp
  · cases hs : r.graphIn.successorsE V.root with
    | error e => dsimp only; exact err_ne_bg (successorsE_ne_bg r.graphIn V.root) hs
    | ok inSuccs =>
      dsimp only
      cases h1 : phase1Loop r t inSuccs g with
      | error e => dsimp only; exact err_ne_bg (phase1Loop_ne_bg r t inSuccs g) h1
      | ok g2 =>
        dsimp only
        cases h2 : addOutputGraph r t ⟨g2, [], c⟩ with
        | error e => dsimp only; exact err_ne_bg (addOutputGraph_ne_bg r t _) h2
        | ok st =>
          dsimp only
          cases h3 : phase3Loop (t.map (fun p => p.2)) st.curNodeDict
              (t.map (fun p => p.2)) st.graph with
          | error e => dsimp only; exact err_ne_bg (phase3Loop_ne_bg _ _ _ _) h3
          | ok gf => simp

/-- C3 amended: `BadGraph` is defined but never raised.  The failure of
correspondence building on the malformed patterns below — the shared
payload `b` has no node in the input pattern — surfaces as `KeyError`,
and neither `Rule` construction nor `Rule.apply` can produce a `BadGraph`
error on any input whatsoever. -/
theorem C3_badgraph_never_raised :
    Rule.mk' giSingle
        ⟨[V.root, V.node 11 "b"], [⟨V.root, V.node 11 "b", -1⟩], []⟩
        ["a", "b"] ["b"] = .error .keyError ∧
    (∀ (gi go : Digraph) (oi oo : List String), isBG (Rule.mk' gi go oi oo) = false) ∧
    (∀ (r : Rule) (g : Digraph) (t : List (V × V)) (dc : Bool) (c : Nat),
      isBG (r.applyRule g t dc c) = false) :=
  ⟨by decide,
   fun gi go oi oo => isBG_eq_false (mkRule_ne_bg gi go oi oo),
   fun r g t dc c => isBG_eq_false (applyRule_ne_bg r g t dc c)⟩


/-- C1: the claim says `Rule.apply(g, m, deepcopy_graph=True)` leaves `g`
untouched and returns an independent deep copy carrying the rewrite.  In
the code, however, `_copy_apply_graph` is a stub: it is declared without
`self` and its body is `pass`, so every call with `deepcopy_graph=True`
raises `TypeError` before any transformation happens and no copy is ever
produced. -/
theorem C1_deepcopy_apply_always_raises :
    ∀ (r : Rule) (g : Digraph) (transform : List (V × V)) (counter : Nat),
      r.applyRule g transform true counter = .error .typeError :=
  fun _ _ _ _ => rfl

/-- C2: the claim says every non-raising `Rule.apply` call returns the
transformed graph.  The code has no `return` statement on the
`deepcopy_graph=False` path, so every such call returns `None`: the pair's
second component, the Python return value, is always `none`. -/
theorem C2_apply_returns_none (r : Rule) (g : Digraph) (transform : List (V × V))
    (counter : Nat) (p : Digraph × Option Digraph)
    (h : r.applyRule g transform false counter = .ok p) : p.2 = none := by
  simp only [Rule.applyRule] at h
  repeat' split at h
  all_goals try simp_all
  all_goals rw [← h]

/-- Witness for C2: the trivial rule applied in place to a small graph
completes, and the Python return value is `None`. -/
theorem C2_apply_returns_none_witness :
    (ruleTrivial.applyRule gZW [] false 100 = .ok (gZW, none)) ∧
      ((gZW, (none : Option Digraph)).2 = none) :=
  ⟨by decide, C2_apply_returns_none ruleTrivial gZW [] 100 (gZW, none) (by decide)⟩

/-- C3 counterexample: the claim says `Rule` construction raises
`BadGraph` whenever correspondence building fails.  On the malformed pair
of patterns below — the shared payload `b` has no node in the input
pattern graph — construction fails with `KeyError`
(`graph_in_node_dict[obj]`), not `BadGraph`. -/
theorem C3_construction_failure_is_keyerror :
    Rule.mk' giSingle
        ⟨[V.root, V.node 11 "b"], [⟨V.root, V.node 11 "b", -1⟩], []⟩
        ["a", "b"] ["b"] = .error .keyError ∧
      PyError.keyError ≠ PyError.badGraph := by
  decide

/-- C5 counterexample: the claim says a matched node with no output copy
is deleted exactly when its out-degree is zero and it has in-degree zero
or the root as its *only* predecessor.  Applying `ruleDrop` to `gOrphan`
with match `{a -> hello, b -> banana}`, the node `banana` is matched, has
no output copy, out-degree zero, and *two* predecessors, `root` and `q` —
yet line 158's test `"root_node" in graph.predecessors(graph_node)`
succeeds and the node is deleted. -/
theorem C5_two_predecessor_orphan_deleted :
    Rule.mk' giPair goSingle ["a", "b"] ["a"] = .ok ruleDrop ∧
    alookupL ruleDrop.nodeDict (V.node 2 "b") = none ∧
    gOrphan.outDeg (V.node 22 "banana") = 0 ∧
    gOrphan.predList (V.node 22 "banana") = [V.root, V.node 23 "q"] ∧
    V.node 23 "q" ≠ V.root ∧
    ruleDrop.applyRule gOrphan
        [(V.node 1 "a", V.node 21 "hello"), (V.node 2 "b", V.node 22 "banana")] false 100 =
      .ok (⟨[V.root, V.node 23 "q"], [⟨V.root, V.node 23 "q", 2⟩],
            [V.root, V.root, V.node 23 "q"]⟩, none) ∧
    Digraph.hasNode ⟨[V.root, V.node 23 "q"], [⟨V.root, V.node 23 "q", 2⟩],
        [V.root, V.root, V.node 23 "q"]⟩ (V.node 22 "banana") = false := by
  decide

/-- C7: the claim says a rule whose output pattern uses one input payload
twice produces exactly two new nodes carrying the matched node's payload,
each wired to every external predecessor and successor of the matched
node.  In the code the reattachment test at line 137 compares a *target*
node against `cur_node_dict`, whose keys are *input-pattern* nodes (line
85), so it never fires for a real match: applying the duplication rule
`a => (a, a)` to `root -0-> hello` yields a graph containing only the
root — the two copies are allocated but never enter the graph, no edge
from the external predecessor `root` to any copy is created, and the
matched node is orphan-collected. -/
theorem C7_duplication_copies_never_wired :
    Rule.mk' giSingle goTwice ["a"] ["a"] = .ok ruleTwice ∧
    gHello.predList (V.node 21 "hello") = [V.root] ∧
    V.root ∉ [(V.node 1 "a", V.node 21 "hello")].map (fun p => p.2) ∧
    ruleTwice.applyRule gHello [(V.node 1 "a", V.node 21 "hello")] false 100 =
      .ok (⟨[V.root], [], [V.root]⟩, none) := by
  decide

/-- C8: the claim says that when every node of the target graph is
reachable from the root before `apply`, every surviving node is still
reachable afterwards.  Applying `ruleProj` (`F(a) => a`) to the chain
`root -> F -> hello -> w`, phase 1 removes the matched edge `F -> hello`,
`F` is orphan-collected, the output copy of `a` is created but never
wired into the graph (its only wiring would come from the dead
reattachment branch) — and the surviving nodes `hello` and `w` are left
with no path from the root. -/
theorem C8_surviving_nodes_unreachable :
    Rule.mk' giCall goSingle ["a"] ["a"] = .ok ruleProj ∧
    gChain.nodes.all (reachable gChain) = true ∧
    ruleProj.applyRule gChain
        [(V.node 2 "F", V.node 21 "F"), (V.node 1 "a", V.node 22 "hello")] false 100 =
      .ok (gChainRes, none) ∧
    gChainRes.hasNode (V.node 22 "hello") = true ∧
    reachable gChainRes (V.node 22 "hello") = false ∧
    gChainRes.hasNode (V.node 23 "w") = true ∧
    reachable gChainRes (V.node 23 "w") = false := by
  decide


theorem hasNode_iff (g : Digraph) (v : V) : g.hasNode v = true ↔ v ∈ g.nodes := by
  simp [Digraph.hasNode]

theorem removeNode_self_gone (g : Digraph) (v : V) (h : g.hasNode v = true) :
    ∃ g' : Digraph, g.removeNode v = .ok g' ∧ g'.hasNode v = false := by
  refine ⟨_, by rw [Digraph.removeNode, if_pos h], ?_⟩
  simp [Digraph.hasNode, List.mem_filter]

/-- C5 amended: in the orphan-collection branch (lines 155-161 of
`rule.py`), a matched target node `v` with no output copy is deleted
exactly when its out-degree is zero and it has in-degree zero or the root
*among* its predecessors — membership, not being the only predecessor —
and in every other case the graph is left unchanged, `v` still in it. -/
theorem C5_orphan_collection_exact_condition (ks : List V) (cnd : List (V × List V))
    (g : Digraph) (v : V)
    (hv : g.hasNode v = true) (hnd : alookupL cnd v = none) :
    ∃ g' : Digraph, phase3Step ks cnd g v = .ok g' ∧
      (g'.hasNode v = false ↔
        (g.outDeg v = 0 ∧ (g.inDeg v = 0 ∨ V.root ∈ g.predList v))) ∧
      (¬(g.outDeg v = 0 ∧ (g.inDeg v = 0 ∨ V.root ∈ g.predList v)) → g' = g) := by
  unfold phase3Step
  rw [hnd]
  dsimp only
  rw [Digraph.outDegreeE, if_pos hv]
  dsimp only
  by_cases hod : g.outDeg v = 0
  · rw [if_pos hod]
    rw [Digraph.inDegreeE, if_pos hv]
    dsimp only
    by_cases hid : g.inDeg v = 0
    · rw [if_pos hid]
      obtain ⟨g', hrm, hgone⟩ := removeNode_self_gone g v hv
      refine ⟨g', hrm, ?_, ?_⟩
      · simp [hgone, hod, hid]
      · intro hcon; exact absurd ⟨hod, Or.inl hid⟩ hcon
    · rw [if_neg hid]
      rw [Digraph.predecessorsE, if_pos hv]
      dsimp only
      by_cases hrp : V.root ∈ g.predList v
      · rw [if_pos (by exact decide_eq_true hrp)]
        obtain ⟨g', hrm, hgone⟩ := removeNode_self_gone g v hv
        refine ⟨g', hrm, ?_, ?_⟩
        · simp [hgone, hod, hrp]
        · intro hcon; exact absurd ⟨hod, Or.inr hrp⟩ hcon
      · rw [if_neg (by simpa using hrp)]
        refine ⟨g, rfl, ?_, fun _ => rfl⟩
        constructor
        · intro hfalse; rw [hv] at hfalse; exact absurd hfalse (by simp)
        · intro ⟨_, hc⟩
          rcases hc with hc | hc
          · exact absurd hc hid
          · exact absurd hc hrp
  · rw [if_neg hod]
    refine ⟨g, rfl, ?_, fun _ => rfl⟩
    constructor
    · intro hfalse; rw [hv] at hfalse; exact absurd hfalse (by simp)
    · intro ⟨hc, _⟩; exact absurd hc hod

/-- Witness for the C5 amended theorem: a matched leaf whose only
predecessor is the root is collected by the orphan branch. -/
theorem C5_orphan_collection_witness :
    ∃ g' : Digraph, phase3Step [] [] gHello (V.node 21 "hello") = .ok g' ∧
      (g'.hasNode (V.node 21 "hello") = false ↔
        (gHello.outDeg (V.node 21 "hello") = 0 ∧
          (gHello.inDeg (V.node 21 "hello") = 0 ∨
            V.root ∈ gHello.predList (V.node 21 "hello")))) ∧
      (¬(gHello.outDeg (V.node 21 "hello") = 0 ∧
          (gHello.inDeg (V.node 21 "hello") = 0 ∨
            V.root ∈ gHello.predList (V.node 21 "hello"))) →
        g' = gHello) :=
  C5_orphan_collection_exact_condition [] [] gHello (V.node 21 "hello")
    (by decide) (by decide)


theorem addNode_edges (g : Digraph) (v : V) : (g.addNode v).edges = g.edges := by
  unfold Digraph.addNode; split <;> rfl

theorem addNode_touched (g : Digraph) (v : V) : (g.addNode v).touched = g.touched := by
  unfold Digraph.addNode; split <;> rfl

theorem hasEdge_addNode (g : Digraph) (v u w : V) :
    (g.addNode v).hasEdge u w = g.hasEdge u w := by
  unfold Digraph.hasEdge; rw [addNode_edges]

theorem hasEdge_false_iff (g : Digraph) (u v : V) :
    g.hasEdge u v = false ↔ ∀ e ∈ g.edges, ¬(e.src = u ∧ e.dst = v) := by
  unfold Digraph.hasEdge
  simp

theorem addEdge_edges_append (g : Digraph) (u v : V) (o : Int)
    (h : g.hasEdge u v = false) :
    (g.addEdge u v o).edges = g.edges ++ [⟨u, v, o⟩] := by
  simp only [Digraph.addEdge]
  rw [hasEdge_addNode, hasEdge_addNode, h]
  simp [addNode_edges]

theorem addEdge_touched_append (g : Digraph) (u v : V) (o : Int) :
    (g.addEdge u v o).touched = g.touched ++ [u] := by
  simp only [Digraph.addEdge]
  split <;> simp [addNode_touched]

theorem hasEdge_false_of_fresh_dst (g : Digraph) (u v : V)
    (h : ∀ e ∈ g.edges, e.dst ≠ v) : g.hasEdge u v = false := by
  rw [hasEdge_false_iff]
  intro e he hc
  exact h e he hc.2

/-- Closed form of the `enumerate(out_nodes)` insertion loop: with fresh
pairwise-distinct copies the inserted edges are appended in order. -/
theorem addCopyEdges_edges (outs : List V) :
    ∀ (g : Digraph) (pre : V) (c : Int),
      (∀ n ∈ outs, ∀ e ∈ g.edges, e.dst ≠ n) → outs.Nodup →
      (addCopyEdges g pre c outs).edges = g.edges ++ copyEdgeList pre c outs := by
  induction outs with
  | nil => intro g pre c _ _; simp [addCopyEdges, copyEdgeList]
  | cons n rest ih =>
    intro g pre c hfresh hnodup
    have hne : g.hasEdge pre n = false :=
      hasEdge_false_of_fresh_dst g pre n (fun e he => hfresh n (by simp) e he)
    have hstep := addEdge_edges_append g pre n c hne
    simp only [addCopyEdges, copyEdgeList]
    rw [ih (g.addEdge pre n c) pre (c + 1) ?hf ?hn]
    · rw [hstep]
      simp
    case hf =>
      intro m hm e he
      rw [hstep] at he
      rcases List.mem_append.mp he with he | he
      · exact hfresh m (by simp [hm]) e he
      · simp only [List.mem_singleton] at he
        subst he
        intro hc
        have hc' : n = m := hc
        rw [← hc'] at hm
        exact (List.nodup_cons.mp hnodup).1 hm
    case hn => exact (List.nodup_cons.mp hnodup).2

theorem copyEdgeList_mem (outs : List V) :
    ∀ (pre : V) (c : Int) (i : Nat) (hi : i < outs.length),
      Edge.mk pre (outs.get ⟨i, hi⟩) (c + (i : Int)) ∈ copyEdgeList pre c outs := by
  induction outs with
  | nil => intro pre c i hi; exact absurd hi (by simp)
  | cons n rest ih =>
    intro pre c i hi
    cases i with
    | zero => simp [copyEdgeList]
    | succ j =>
      have := ih pre (c + 1) j (by simpa using hi)
      simp only [copyEdgeList, List.mem_cons]
      right
      have harith : c + 1 + (j : Int) = c + ((j : Int) + 1) := by ring
      simpa [harith] using this

theorem copyEdgeList_src (outs : List V) :
    ∀ (pre : V) (c : Int) (e : Edge), e ∈ copyEdgeList pre c outs → e.src = pre := by
  induction outs with
  | nil => intro pre c e he; simp [copyEdgeList] at he
  | cons n rest ih =>
    intro pre c e he
    simp only [copyEdgeList, List.mem_cons] at he
    rcases he with he | he
    · rw [he]
    · exact ih pre (c + 1) e he

theorem copyEdgeList_dst (outs : List V) :
    ∀ (pre : V) (c : Int) (e : Edge), e ∈ copyEdgeList pre c outs → e.dst ∈ outs := by
  induction outs with
  | nil => intro pre c e he; simp [copyEdgeList] at he
  | cons n rest ih =>
    intro pre c e he
    simp only [copyEdgeList, List.mem_cons] at he
    rcases he with he | he
    · rw [he]; simp
    · simp [ih pre (c + 1) e he]

theorem copyEdgeList_order_bounds (outs : List V) :
    ∀ (pre : V) (c : Int) (e : Edge), e ∈ copyEdgeList pre c outs →
      c ≤ e.order ∧ e.order < c + (outs.length : Int) := by
  induction outs with
  | nil => intro pre c e he; simp [copyEdgeList] at he
  | cons n rest ih =>
    intro pre c e he
    simp only [copyEdgeList, List.mem_cons] at he
    rcases he with he | he
    · rw [he]; constructor
      · exact le_refl c
      · simp only [List.length_cons]
        omega
    · obtain ⟨h1, h2⟩ := ih pre (c + 1) e he
      constructor
      · omega
      · simp only [List.length_cons]
        omega

theorem copyEdgeList_orders_nodup (outs : List V) :
    ∀ (pre : V) (c : Int), ((copyEdgeList pre c outs).map Edge.order).Nodup := by
  induction outs with
  | nil => intro pre c; simp [copyEdgeList]
  | cons n rest ih =>
    intro pre c
    simp only [copyEdgeList, List.map_cons, List.nodup_cons]
    refine ⟨?_, ih pre (c + 1)⟩
    intro hc
    rcases List.mem_map.mp hc with ⟨e, he, heq⟩
    obtain ⟨h1, _⟩ := copyEdgeList_order_bounds rest pre (c + 1) e he
    omega

theorem mem_outEdges_iff (g : Digraph) (v : V) (e : Edge) :
    e ∈ g.outEdges v ↔ e ∈ g.edges ∧ e.src = v := by
  simp [Digraph.outEdges]

theorem getEdgeData_some_mem (g : Digraph) (u v : V) (o : Int)
    (h : g.getEdgeData u v = some o) :
    ∃ e ∈ g.edges, e.src = u ∧ e.dst = v ∧ e.order = o := by
  unfold Digraph.getEdgeData at h
  cases hf : g.edges.find? (fun e => decide (e.src = u) && decide (e.dst = v)) with
  | none => rw [hf] at h; exact absurd h (by simp)
  | some e =>
    rw [hf] at h
    simp at h
    have hmem := List.mem_of_find?_eq_some hf
    have hp := List.find?_some hf
    simp only [Bool.and_eq_true, decide_eq_true_eq] at hp
    refine ⟨e, hmem, hp.1, hp.2, ?_⟩
    simpa using h

theorem filter_map_comm (f : Edge → Edge) (p : Edge → Bool)
    (hf : ∀ e, p (f e) = p e) (l : List Edge) :
    (l.map f).filter p = (l.filter p).map f := by
  induction l with
  | nil => rfl
  | cons e rest ih =>
    simp only [List.map_cons, List.filter_cons]
    rw [hf e]
    cases hp : p e with
    | false => simpa using ih
    | true => simpa using ih

theorem hasEdge_false_of_fresh_src (g : Digraph) (u v : V)
    (h : ∀ e ∈ g.edges, e.src ≠ u) : g.hasEdge u v = false := by
  rw [hasEdge_false_iff]
  intro e he hc
  exact h e he hc.1

/-- Closed form of the inner copy loop of lines 152-153: with fresh
pairwise-distinct copies every copy is appended as a new edge to the
successor, all carrying the old edge's order. -/
theorem reattachSuccStep_edges (outs : List V) :
    ∀ (g : Digraph) (gn suc : V) (oldS : Int),
      g.getEdgeData gn suc = some oldS →
      (∀ n ∈ outs, ∀ e ∈ g.edges, e.src ≠ n ∧ e.dst ≠ n) →
      outs.Nodup →
      ∃ g2 : Digraph, reattachSuccStep gn g suc outs = .ok g2 ∧
        g2.edges = g.edges ++ outs.map (fun n => ⟨n, suc, oldS⟩) := by
  induction outs with
  | nil =>
    intro g gn suc oldS hsedge _ _
    exact ⟨g, rfl, by simp⟩
  | cons n rest ih =>
    intro g gn suc oldS hsedge hfresh hnodup
    have hne : g.hasEdge n suc = false :=
      hasEdge_false_of_fresh_src g n suc
        (fun e he => (hfresh n (by simp) e he).1)
    have hstep := addEdge_edges_append g n suc oldS hne
    have hsedge2 : (g.addEdge n suc oldS).getEdgeData gn suc = some oldS := by
      unfold Digraph.getEdgeData at hsedge ⊢
      rw [hstep]
      rw [List.find?_append]
      cases hf : g.edges.find? (fun e => decide (e.src = gn) && decide (e.dst = suc)) with
      | none => rw [hf] at hsedge; exact absurd hsedge (by simp)
      | some e => rw [hf] at hsedge; simpa using hsedge
    have hfresh2 : ∀ m ∈ rest, ∀ e ∈ (g.addEdge n suc oldS).edges, e.src ≠ m ∧ e.dst ≠ m := by
      intro m hm e he
      rw [hstep] at he
      rcases List.mem_append.mp he with he | he
      · exact hfresh m (by simp [hm]) e he
      · simp only [List.mem_singleton] at he
        subst he
        constructor
        · intro hc
          have hc' : n = m := hc
          rw [← hc'] at hm
          exact (List.nodup_cons.mp hnodup).1 hm
        · intro hc
          have hc' : suc = m := hc
          obtain ⟨e1, he1, _, hd1, _⟩ := getEdgeData_some_mem g gn suc oldS hsedge
          have := (hfresh m (by simp [hm]) e1 he1).2
          rw [hd1] at this
          exact this hc'
    obtain ⟨g2, hg2, hed2⟩ := ih (g.addEdge n suc oldS) gn suc oldS hsedge2 hfresh2
      (List.nodup_cons.mp hnodup).2
    refine ⟨g2, ?_, ?_⟩
    · simp only [reattachSuccStep]
      rw [hsedge]
      dsimp only
      exact hg2
    · rw [hed2, hstep]
      simp

theorem shiftEdge_src (pre : V) (c : Int) (k : Nat) (e : Edge) :
    (shiftEdge pre c k e).src = e.src := by
  unfold shiftEdge; split <;> rfl

theorem shiftEdge_dst (pre : V) (c : Int) (k : Nat) (e : Edge) :
    (shiftEdge pre c k e).dst = e.dst := by
  unfold shiftEdge; split <;> rfl

theorem shiftEdge_of_gt (pre : V) (c : Int) (k : Nat) (e : Edge)
    (hs : e.src = pre) (hgt : c < e.order) :
    shiftEdge pre c k e = ⟨pre, e.dst, e.order + (k : Int) - 1⟩ := by
  unfold shiftEdge
  rw [if_pos (by simp [hs, hgt])]
  cases e
  simp_all

theorem shiftEdge_of_le (pre : V) (c : Int) (k : Nat) (e : Edge)
    (hle : e.order ≤ c) : shiftEdge pre c k e = e := by
  unfold shiftEdge
  rw [if_neg (by simp; omega)]

theorem shiftEdge_order_of_src (pre : V) (c : Int) (k : Nat) (e : Edge)
    (hs : e.src = pre) :
    (shiftEdge pre c k e).order =
      if c < e.order then e.order + (k : Int) - 1 else e.order := by
  unfold shiftEdge
  by_cases h : c < e.order
  · rw [if_pos (by simp [hs, h]), if_pos h]
  · rw [if_neg (by simp [hs]; omega), if_neg h]

/-- C6: when the reattachment step of lines 140-153 reroutes the `k`
output copies of a matched node to a predecessor outside the match whose
old edge to the matched node had order `c`, then (i) every pre-existing
out-edge of that predecessor with order above `c` reappears with its
order raised by `k - 1` while those at or below `c` are kept verbatim,
(ii) the `k` copies receive orders `c`, `c+1`, ..., `c+k-1`, (iii) once
the old edge to the matched node is dropped (it goes away when line 154
deletes the matched node) the predecessor's out-edge orders are pairwise
distinct whenever they were distinct before, and (iv) the successor half
of the step wires every copy to a successor outside the match with the
old edge's original order. -/
theorem C6_reattach_shifts_and_orders
    (ks : List V) (gn : V) (outs : List V) (g : Digraph) (pre suc : V) (c oldS : Int)
    (hk : outs ≠ [])
    (hnd : outs.Nodup)
    (hfresh : ∀ n ∈ outs, ∀ e ∈ g.edges, e.src ≠ n ∧ e.dst ≠ n)
    (hpre : pre ∉ ks)
    (hsuc : suc ∉ ks)
    (hedge : g.getEdgeData pre gn = some c)
    (hsedge : g.getEdgeData gn suc = some oldS)
    (horders : ((g.outEdges pre).map Edge.order).Nodup) :
    ∃ g' : Digraph, reattachPredStep ks gn outs g pre = .ok g' ∧
      (∀ e ∈ g.outEdges pre,
        (c < e.order →
          Edge.mk pre e.dst (e.order + (outs.length : Int) - 1) ∈ g'.outEdges pre) ∧
        (e.order ≤ c → e ∈ g'.outEdges pre)) ∧
      (∀ (i : Nat) (hi : i < outs.length),
        Edge.mk pre (outs.get ⟨i, hi⟩) (c + (i : Int)) ∈ g'.outEdges pre) ∧
      (((g'.outEdges pre).filter (fun e => !(decide (e.dst = gn)))).map Edge.order).Nodup ∧
      (∃ g2 : Digraph, reattachSuccLoop ks gn outs [suc] g = .ok g2 ∧
        ∀ n ∈ outs, Edge.mk n suc oldS ∈ g2.edges) := by
  have hgn : gn ∉ outs := by
    intro hgo
    obtain ⟨e0, he0, _, hd0, _⟩ := getEdgeData_some_mem g pre gn c hedge
    exact (hfresh gn hgo e0 he0).2 hd0
  have hfreshS : ∀ n ∈ outs, ∀ e ∈ (shiftOrders g pre c outs.length).edges, e.dst ≠ n := by
    intro n hn e he
    obtain ⟨e0, he0, rfl⟩ := List.mem_map.mp he
    rw [shiftEdge_dst]
    exact (hfresh n hn e0 he0).2
  have hGE : (addCopyEdges (shiftOrders g pre c outs.length) pre c outs).edges =
      g.edges.map (shiftEdge pre c outs.length) ++ copyEdgeList pre c outs :=
    addCopyEdges_edges outs (shiftOrders g pre c outs.length) pre c hfreshS hnd
  have hOE : (addCopyEdges (shiftOrders g pre c outs.length) pre c outs).outEdges pre =
      (g.outEdges pre).map (shiftEdge pre c outs.length) ++ copyEdgeList pre c outs := by
    unfold Digraph.outEdges
    rw [hGE, List.filter_append]
    congr 1
    · exact filter_map_comm (shiftEdge pre c outs.length) _
        (fun e => by rw [shiftEdge_src]) g.edges
    · exact List.filter_eq_self.mpr
        (fun e he => by simp [copyEdgeList_src outs pre c e he])
  refine ⟨addCopyEdges (shiftOrders g pre c outs.length) pre c outs, ?_, ?_, ?_, ?_, ?_⟩
  · unfold reattachPredStep
    rw [if_neg (by simpa using hpre), hedge]
  · intro e he
    have he' := (mem_outEdges_iff g pre e).mp he
    constructor
    · intro hgt
      rw [hOE]
      refine List.mem_append_left _ ?_
      have := List.mem_map_of_mem (shiftEdge pre c outs.length) he
      rwa [shiftEdge_of_gt pre c outs.length e he'.2 hgt] at this
    · intro hle
      rw [hOE]
      refine List.mem_append_left _ ?_
      have := List.mem_map_of_mem (shiftEdge pre c outs.length) he
      rwa [shiftEdge_of_le pre c outs.length e hle] at this
  · intro i hi
    rw [hOE]
    exact List.mem_append_right _ (copyEdgeList_mem outs pre c i hi)
  · rw [hOE, List.filter_append]
    rw [filter_map_comm (shiftEdge pre c outs.length) _
        (fun e => by rw [shiftEdge_dst]) (g.outEdges pre)]
    have hcel : (copyEdgeList pre c outs).filter (fun e => !(decide (e.dst = gn))) =
        copyEdgeList pre c outs :=
      List.filter_eq_self.mpr (fun e he => by
        have hne : e.dst ≠ gn := fun hc => hgn (hc ▸ copyEdgeList_dst outs pre c e he)
        simp [hne])
    rw [hcel]
    rw [List.map_append]
    have hk1 : 1 ≤ (outs.length : Int) := by
      have := List.length_pos.mpr hk
      omega
    have hXsub : (((g.outEdges pre).filter (fun e => !(decide (e.dst = gn)))).map
        Edge.order).Nodup := by
      have hs : (((g.outEdges pre).filter (fun e => !(decide (e.dst = gn)))).map
          Edge.order).Sublist ((g.outEdges pre).map Edge.order) :=
        (List.filter_sublist _).map Edge.order
      exact horders.sublist hs
    have hmm : (((g.outEdges pre).filter (fun e => !(decide (e.dst = gn)))).map
        (shiftEdge pre c outs.length)).map Edge.order =
        (((g.outEdges pre).filter (fun e => !(decide (e.dst = gn)))).map Edge.order).map
          (fun o => if c < o then o + (outs.length : Int) - 1 else o) := by
      rw [List.map_map, List.map_map]
      refine List.map_congr_left ?_
      intro e he
      have hsrc : e.src = pre := ((mem_outEdges_iff g pre e).mp (List.mem_filter.mp he).1).2
      simp only [Function.comp]
      exact shiftEdge_order_of_src pre c outs.length e hsrc
    rw [hmm]
    refine List.Nodup.append (List.Nodup.map ?_ hXsub)
      (copyEdgeList_orders_nodup outs pre c) ?_
    · intro a b hab
      by_cases ha : c < a <;> by_cases hb : c < b <;> simp [ha, hb] at hab <;> omega
    · intro x hxA hxB
      obtain ⟨o, hoA, rfl⟩ := List.mem_map.mp hxA
      obtain ⟨e2, he2, hx2⟩ := List.mem_map.mp hxB
      obtain ⟨hb1, hb2⟩ := copyEdgeList_order_bounds outs pre c e2 he2
      obtain ⟨e1, he1X, ho⟩ := List.mem_map.mp hoA
      have he1f := List.mem_filter.mp he1X
      obtain ⟨e0, he0, hs0, hd0, hor0⟩ := getEdgeData_some_mem g pre gn c hedge
      have he0' : e0 ∈ g.outEdges pre := (mem_outEdges_iff g pre e0).mpr ⟨he0, hs0⟩
      have hoc : o ≠ c := by
        intro hoc
        have heq : e0 = e1 :=
          List.inj_on_of_nodup_map horders he0' he1f.1 (by rw [hor0, ho, hoc])
        have hne : e1.dst ≠ gn := by
          have := he1f.2
          simpa using this
        rw [← heq] at hne
        exact hne hd0
      by_cases hco : c < o
      · rw [if_pos hco] at hx2
        omega
      · rw [if_neg hco] at hx2
        omega
  · obtain ⟨g2, hg2, hed2⟩ := reattachSuccStep_edges outs g gn suc oldS hsedge hfresh hnd
    refine ⟨g2, ?_, ?_⟩
    · simp only [reattachSuccLoop]
      rw [if_neg (by simpa using hsuc), hg2]
    · intro n hn
      rw [hed2]
      exact List.mem_append_right _ (List.mem_map_of_mem _ hn)

/-- Witness for C6: the root of `gSibs` is an external predecessor of the
matched node `t` through an edge of order 0, with a sibling edge of order
1 that gets shifted, and `u` is an external successor reached through an
edge of order 3. -/
theorem C6_reattach_witness :
    ∃ g' : Digraph, reattachPredStep [] (V.node 1 "t") copyPair gSibs V.root = .ok g' ∧
      (∀ e ∈ gSibs.outEdges V.root,
        ((0 : Int) < e.order →
          Edge.mk V.root e.dst (e.order + (copyPair.length : Int) - 1) ∈
            g'.outEdges V.root) ∧
        (e.order ≤ (0 : Int) → e ∈ g'.outEdges V.root)) ∧
      (∀ (i : Nat) (hi : i < copyPair.length),
        Edge.mk V.root (copyPair.get ⟨i, hi⟩) ((0 : Int) + (i : Int)) ∈
          g'.outEdges V.root) ∧
      (((g'.outEdges V.root).filter
          (fun e => !(decide (e.dst = V.node 1 "t")))).map Edge.order).Nodup ∧
      (∃ g2 : Digraph, reattachSuccLoop [] (V.node 1 "t") copyPair [V.node 2 "u"] gSibs =
          .ok g2 ∧
        ∀ n ∈ copyPair, Edge.mk n (V.node 2 "u") (3 : Int) ∈ g2.edges) :=
  C6_reattach_shifts_and_orders [] (V.node 1 "t") copyPair gSibs V.root (V.node 2 "u") 0 3
    (by decide) (by decide) (by decide) (by decide) (by decide) (by decide) (by decide)
    (by decide)


theorem lookupLastValue_mem (ins : List V) (o : String) (n : V)
    (h : lookupLastValue ins o = some n) : n ∈ ins ∧ n.value = some o := by
  unfold lookupLastValue at h
  have hmem : n ∈ ins.filter (fun m => decide (m.value = some o)) := by
    rcases List.mem_getLast?_eq_getLast (show n ∈ _ from h) with ⟨hne, rfl⟩
    exact List.getLast_mem hne
  have := List.mem_filter.mp hmem
  exact ⟨this.1, by simpa using this.2⟩

theorem lookupLastValue_isSome (ins : List V) (o : String) :
    (lookupLastValue ins o).isSome = true ↔ ∃ n ∈ ins, n.value = some o := by
  unfold lookupLastValue
  rw [List.getLast?_isSome]
  constructor
  · intro hne
    rcases List.exists_mem_of_ne_nil _ hne with ⟨n, hn⟩
    have := List.mem_filter.mp hn
    exact ⟨n, this.1, by simpa using this.2⟩
  · intro ⟨n, hn, hv⟩
    intro hnil
    have : n ∈ ins.filter (fun m => decide (m.value = some o)) :=
      List.mem_filter.mpr ⟨hn, by simpa using hv⟩
    rw [hnil] at this
    exact absurd this (by simp)

theorem lookupLastValue_eq_iff (ins : List V)
    (hnd : (ins.map V.value).Nodup) (o : String) (n : V) :
    lookupLastValue ins o = some n ↔ (n ∈ ins ∧ n.value = some o) := by
  constructor
  · exact lookupLastValue_mem ins o n
  · intro ⟨hn, hv⟩
    induction ins with
    | nil => exact absurd hn (by simp)
    | cons m rest ih =>
      rw [List.map_cons, List.nodup_cons] at hnd
      by_cases hm : m.value = some o
      · have hrest : rest.filter (fun x => decide (x.value = some o)) = [] := by
          rw [List.filter_eq_nil_iff]
          intro x hx hc
          simp only [decide_eq_true_eq] at hc
          exact hnd.1 (by
            rw [hm, ← hc]
            exact List.mem_map_of_mem V.value hx)
        have hn' : n = m := by
          rcases List.mem_cons.mp hn with h | h
          · exact h
          · exact absurd (by
              rw [hm, ← hv]
              exact List.mem_map_of_mem V.value h) hnd.1
        unfold lookupLastValue
        rw [List.filter_cons_of_pos (by simpa using hm), hrest]
        simp [hn']
      · have hn' : n ∈ rest := by
          rcases List.mem_cons.mp hn with h | h
          · rw [h] at hv; exact absurd hv hm
          · exact h
        unfold lookupLastValue
        rw [List.filter_cons_of_neg (by simpa using hm)]
        exact ih hnd.2 hn'

theorem createNodeDictLoop_closed (ins : List V) :
    ∀ (objs : List String) (nd : List (V × List V)) (rnd : List (V × V)) (un : List V),
      (∀ o ∈ objs, (lookupLastValue ins o).isSome = true) →
      createNodeDictLoop ins objs nd rnd un =
        .ok ⟨nd ++ loopPairs ins objs un, rnd ++ loopRev ins objs un⟩ := by
  intro objs
  induction objs with
  | nil => intro nd rnd un _; simp [createNodeDictLoop, loopPairs, loopRev]
  | cons o rest ih =>
    intro nd rnd un hpres
    simp only [createNodeDictLoop, loopPairs, loopRev]
    cases hl : lookupLastValue ins o with
    | none =>
      have := hpres o (by simp)
      rw [hl] at this
      exact absurd this (by simp)
    | some key =>
      dsimp only
      rw [ih _ _ _ (fun o2 ho2 => hpres o2 (by simp [ho2]))]
      simp [List.append_assoc]

theorem filter_value_comm (un : List V) (o o2 : String) (hne : o2 ≠ o) :
    (un.filter (fun n => !(decide (n.value = some o)))).filter
        (fun n => decide (n.value = some o2)) =
      un.filter (fun n => decide (n.value = some o2)) := by
  rw [List.filter_filter]
  refine List.filter_congr ?_
  intro n _
  by_cases h : n.value = some o2
  · have hno : n.value ≠ some o := by rw [h]; intro hc; exact hne (by simpa using hc)
    simp [h, hno, hne]
  · simp [h]

theorem loopPairs_mem_iff (ins : List V) :
    ∀ (objs : List String), objs.Nodup →
      (∀ o ∈ objs, (lookupLastValue ins o).isSome = true) →
      ∀ (un : List V) (key : V) (l : List V),
        ((key, l) ∈ loopPairs ins objs un ↔
          ∃ o ∈ objs, lookupLastValue ins o = some key ∧
            l = un.filter (fun n => decide (n.value = some o))) := by
  intro objs
  induction objs with
  | nil => intro _ _ un key l; simp [loopPairs]
  | cons o rest ih =>
    intro hnd hpres un key l
    have hnd' := List.nodup_cons.mp hnd
    cases hl : lookupLastValue ins o with
    | none =>
      have := hpres o (by simp)
      rw [hl] at this
      exact absurd this (by simp)
    | some k =>
      simp only [loopPairs, hl]
      constructor
      · intro hmem
        rcases List.mem_cons.mp hmem with h | h
        · refine ⟨o, by simp, ?_, ?_⟩
          · rw [hl]; rw [(Prod.mk.injEq _ _ _ _).mp h |>.1]
          · exact ((Prod.mk.injEq _ _ _ _).mp h).2.symm ▸ rfl
        · obtain ⟨o2, ho2, hlk, hle⟩ :=
            (ih hnd'.2 (fun x hx => hpres x (by simp [hx])) _ key l).mp h
          refine ⟨o2, by simp [ho2], hlk, ?_⟩
          rw [hle]
          exact filter_value_comm un o o2 (fun hc => hnd'.1 (hc ▸ ho2))
      · intro ⟨o2, ho2, hlk, hle⟩
        rcases List.mem_cons.mp ho2 with h | h
        · subst h
          rw [hl] at hlk
          have hkey : k = key := by simpa using hlk
          exact List.mem_cons.mpr (Or.inl (by rw [hkey, hle]))
        · refine List.mem_cons.mpr (Or.inr ?_)
          refine (ih hnd'.2 (fun x hx => hpres x (by simp [hx])) _ key l).mpr ?_
          refine ⟨o2, h, hlk, ?_⟩
          rw [hle]
          exact (filter_value_comm un o o2 (fun hc => hnd'.1 (hc ▸ h))).symm

theorem loopRev_mem_iff (ins : List V) :
    ∀ (objs : List String), objs.Nodup →
      (∀ o ∈ objs, (lookupLastValue ins o).isSome = true) →
      ∀ (un : List V) (m key : V),
        ((m, key) ∈ loopRev ins objs un ↔
          ∃ o ∈ objs, lookupLastValue ins o = some key ∧ m ∈ un ∧
            m.value = some o) := by
  intro objs
  induction objs with
  | nil => intro _ _ un m key; simp [loopRev]
  | cons o rest ih =>
    intro hnd hpres un m key
    have hnd' := List.nodup_cons.mp hnd
    cases hl : lookupLastValue ins o with
    | none =>
      have := hpres o (by simp)
      rw [hl] at this
      exact absurd this (by simp)
    | some k =>
      simp only [loopRev, hl]
      rw [List.mem_append]
      constructor
      · intro hmem
        rcases hmem with h | h
        · obtain ⟨n, hn, heq⟩ := List.mem_map.mp h
          have hn' := List.mem_filter.mp hn
          have hnm : n = m := ((Prod.mk.injEq _ _ _ _).mp heq).1
          have hkk : k = key := ((Prod.mk.injEq _ _ _ _).mp heq).2
          subst hnm
          exact ⟨o, by simp, by rw [hl, hkk], hn'.1, by simpa using hn'.2⟩
        · obtain ⟨o2, ho2, hlk, hm, hv⟩ :=
            (ih hnd'.2 (fun x hx => hpres x (by simp [hx])) _ m key).mp h
          refine ⟨o2, by simp [ho2], hlk, List.mem_of_mem_filter hm, hv⟩
      · intro ⟨o2, ho2, hlk, hm, hv⟩
        rcases List.mem_cons.mp ho2 with h | h
        · subst h
          rw [hl] at hlk
          have hkey : k = key := by simpa using hlk
          refine Or.inl (List.mem_map.mpr ⟨m, ?_, by rw [hkey]⟩)
          exact List.mem_filter.mpr ⟨hm, by simpa using hv⟩
        · refine Or.inr ?_
          refine (ih hnd'.2 (fun x hx => hpres x (by simp [hx])) _ m key).mpr ?_
          refine ⟨o2, h, hlk, ?_, hv⟩
          refine List.mem_filter.mpr ⟨hm, ?_⟩
          have : m.value ≠ some o := by
            rw [hv]
            intro hc
            exact hnd'.1 ((show o2 = o by simpa using hc) ▸ h)
          simpa using this

theorem loopRev_fst_sub (ins : List V) :
    ∀ (objs : List String) (un : List V) (p : V × V),
      p ∈ loopRev ins objs un → p.1 ∈ un := by
  intro objs
  induction objs with
  | nil => intro un p hp; simp [loopRev] at hp
  | cons o rest ih =>
    intro un p hp
    simp only [loopRev] at hp
    cases hl : lookupLastValue ins o with
    | none => rw [hl] at hp; dsimp only at hp; exact absurd hp (by simp)
    | some k =>
      rw [hl] at hp
      dsimp only at hp
      rcases List.mem_append.mp hp with h | h
      · obtain ⟨n, hn, heq⟩ := List.mem_map.mp h
        rw [← heq]
        exact List.mem_of_mem_filter hn
      · exact List.mem_of_mem_filter (ih _ p h)

theorem loopRev_fst_nodup (ins : List V) :
    ∀ (objs : List String) (un : List V), un.Nodup →
      ((loopRev ins objs un).map Prod.fst).Nodup := by
  intro objs
  induction objs with
  | nil => intro un _; simp [loopRev]
  | cons o rest ih =>
    intro un hun
    cases hl : lookupLastValue ins o with
    | none => simp [loopRev, hl]
    | some k =>
      simp only [loopRev, hl]
      rw [List.map_append]
      refine List.Nodup.append ?_ (ih _ (hun.filter _)) ?_
      · rw [List.map_map]
        have hid : ((un.filter (fun n => decide (n.value = some o))).map
            (Prod.fst ∘ fun n => (n, k))) =
            un.filter (fun n => decide (n.value = some o)) := by
          rw [show (Prod.fst ∘ fun n : V => (n, k)) = id from rfl, List.map_id]
        rw [hid]
        exact hun.filter _
      · intro x hx1 hx2
        rw [List.map_map] at hx1
        obtain ⟨n, hn, heq⟩ := List.mem_map.mp hx1
        have hxval : x.value = some o := by
          have := (List.mem_filter.mp hn).2
          rw [show (Prod.fst ∘ fun n => (n, k)) n = n from rfl] at heq
          rw [← heq]
          simpa using this
        obtain ⟨p, hp, hpx⟩ := List.mem_map.mp hx2
        have hxin : x ∈ un.filter (fun n => !(decide (n.value = some o))) := by
          rw [← hpx]
          exact loopRev_fst_sub ins rest _ p hp
        have := (List.mem_filter.mp hxin).2
        simp only [Bool.not_eq_true', decide_eq_false_iff_not] at this
        exact this hxval

/-- C4: characterization of `Rule._create_node_dict` on well-formed
pattern pairs (payload sets realized by nodes, pairwise-distinct
input-pattern payloads, the presupposition under which the claim speaks of
"the" input node of a payload): `node_dict`'s keys are exactly the
non-root input-pattern nodes whose payload lies in the intersection of
the two payload sets; each key maps to the list of all non-root
output-pattern nodes carrying that payload (in output-graph enumeration
order); each output node is assigned at most once; and
`reverse_node_dict` maps exactly the shared-payload output nodes to the
single input node of their payload — the inverse-star of `node_dict`. -/
theorem C4_correspondence_characterization
    (graphIn graphOut : Digraph) (objIn objOut : List String)
    (hproper : ∀ n ∈ graphIn.nodes.drop 1, n ≠ V.root)
    (hvals : ((graphIn.nodes.drop 1).map V.value).Nodup)
    (houts : (graphOut.nodes.drop 1).Nodup)
    (hobj : objIn.Nodup)
    (hpres : ∀ o ∈ objIn, o ∈ objOut → ∃ n ∈ graphIn.nodes.drop 1, n.value = some o) :
    ∃ d : NodeDicts, createNodeDict graphIn graphOut objIn objOut = .ok d ∧
      (∀ n : V, n ∈ d.nodeDict.map Prod.fst ↔
        (n ∈ graphIn.nodes.drop 1 ∧ ∃ o, o ∈ objIn ∧ o ∈ objOut ∧ n.value = some o)) ∧
      (∀ (n : V) (l : List V), (n, l) ∈ d.nodeDict →
        l = (graphOut.nodes.drop 1).filter (fun m => decide (m.value = n.value))) ∧
      ((d.reverseNodeDict.map Prod.fst).Nodup) ∧
      (∀ m n : V, (m, n) ∈ d.reverseNodeDict ↔
        (m ∈ graphOut.nodes.drop 1 ∧ n ∈ graphIn.nodes.drop 1 ∧ m.value = n.value ∧
          ∃ o, o ∈ objIn ∧ o ∈ objOut ∧ m.value = some o)) := by
  have hcomnd : (objIn.filter (fun o => decide (o ∈ objOut))).Nodup := hobj.filter _
  have hcompres : ∀ o ∈ objIn.filter (fun o => decide (o ∈ objOut)),
      (lookupLastValue (graphIn.nodes.drop 1) o).isSome = true := by
    intro o ho
    have hmem := List.mem_filter.mp ho
    have hoo : o ∈ objOut := by simpa using hmem.2
    exact (lookupLastValue_isSome _ o).mpr (hpres o hmem.1 hoo)
  have hcne : createNodeDict graphIn graphOut objIn objOut =
      .ok ⟨loopPairs (graphIn.nodes.drop 1) (objIn.filter (fun o => decide (o ∈ objOut)))
            (graphOut.nodes.drop 1),
          loopRev (graphIn.nodes.drop 1) (objIn.filter (fun o => decide (o ∈ objOut)))
            (graphOut.nodes.drop 1)⟩ := by
    simp only [createNodeDict]
    rw [if_pos (by
      rw [List.all_eq_true]
      intro n hn
      simpa using hproper n hn)]
    exact createNodeDictLoop_closed _ _ [] [] _ hcompres
  refine ⟨_, hcne, ?_, ?_, ?_, ?_⟩
  · intro n
    constructor
    · intro hn
      obtain ⟨⟨pk, pl⟩, hp, hpn⟩ := List.mem_map.mp hn
      have hpk : pk = n := hpn
      subst hpk
      obtain ⟨o, ho, hlk, _⟩ :=
        (loopPairs_mem_iff _ _ hcomnd hcompres _ pk pl).mp hp
      have hm := lookupLastValue_mem _ o pk hlk
      have hoio := List.mem_filter.mp ho
      exact ⟨hm.1, o, hoio.1, by simpa using hoio.2, hm.2⟩
    · intro ⟨hnin, o, hoi, hoo, hnv⟩
      have hcomem : o ∈ objIn.filter (fun o => decide (o ∈ objOut)) :=
        List.mem_filter.mpr ⟨hoi, by simpa using hoo⟩
      have hlk : lookupLastValue (graphIn.nodes.drop 1) o = some n :=
        (lookupLastValue_eq_iff _ hvals o n).mpr ⟨hnin, hnv⟩
      refine List.mem_map.mpr
        ⟨(n, (graphOut.nodes.drop 1).filter (fun m => decide (m.value = some o))), ?_, rfl⟩
      exact (loopPairs_mem_iff _ _ hcomnd hcompres _ n _).mpr ⟨o, hcomem, hlk, rfl⟩
  · intro n l hmem
    obtain ⟨o, _, hlk, hl⟩ :=
      (loopPairs_mem_iff _ _ hcomnd hcompres _ n l).mp hmem
    have hnv := (lookupLastValue_mem _ o n hlk).2
    rw [hl, hnv]
  · exact loopRev_fst_nodup _ _ _ houts
  · intro m n
    rw [loopRev_mem_iff _ _ hcomnd hcompres _ m n]
    constructor
    · intro ⟨o, ho, hlk, hm, hv⟩
      have hnm := lookupLastValue_mem _ o n hlk
      have hoio := List.mem_filter.mp ho
      exact ⟨hm, hnm.1, by rw [hv, hnm.2], o, hoio.1, by simpa using hoio.2, hv⟩
    · intro ⟨hm, hn, hmv, o, hoi, hoo, hv⟩
      have hcomem : o ∈ objIn.filter (fun o => decide (o ∈ objOut)) :=
        List.mem_filter.mpr ⟨hoi, by simpa using hoo⟩
      have hnv : n.value = some o := by rw [← hmv]; exact hv
      exact ⟨o, hcomem, (lookupLastValue_eq_iff _ hvals o n).mpr ⟨hn, hnv⟩, hm, hv⟩

/-- Witness for C4: the rule `{a, b} => a` with payload sets
`{a, b}` and `{a}`. -/
theorem C4_correspondence_witness :
    ∃ d : NodeDicts, createNodeDict giPair goSingle ["a", "b"] ["a"] = .ok d ∧
      (∀ n : V, n ∈ d.nodeDict.map Prod.fst ↔
        (n ∈ giPair.nodes.drop 1 ∧ ∃ o, o ∈ ["a", "b"] ∧ o ∈ ["a"] ∧ n.value = some o)) ∧
      (∀ (n : V) (l : List V), (n, l) ∈ d.nodeDict →
        l = (goSingle.nodes.drop 1).filter (fun m => decide (m.value = n.value))) ∧
      ((d.reverseNodeDict.map Prod.fst).Nodup) ∧
      (∀ m n : V, (m, n) ∈ d.reverseNodeDict ↔
        (m ∈ goSingle.nodes.drop 1 ∧ n ∈ giPair.nodes.drop 1 ∧ m.value = n.value ∧
          ∃ o, o ∈ ["a", "b"] ∧ o ∈ ["a"] ∧ m.value = some o)) :=
  C4_correspondence_characterization giPair goSingle ["a", "b"] ["a"]
    (by decide) (by decide) (by decide) (by decide) (by decide)

/-- C10: when the input pattern carries the same payload on two distinct
non-root nodes, correspondence building succeeds without raising;
`graph_in_node_dict` is built by overwriting, so every output-pattern
node of that payload is silently bound to the input node enumerated last,
and the earlier node appears neither among `node_dict`'s keys nor among
`reverse_node_dict`'s values. -/
theorem C10_duplicate_payload_last_wins
    (graphIn graphOut : Digraph) (objIn objOut : List String)
    (hproper : ∀ n ∈ graphIn.nodes.drop 1, n ≠ V.root)
    (hobj : objIn.Nodup)
    (hpres : ∀ o ∈ objIn, o ∈ objOut → ∃ n ∈ graphIn.nodes.drop 1, n.value = some o)
    (n1 n2 : V) (val : String)
    (hn1 : n1 ∈ graphIn.nodes.drop 1) (hne : n1 ≠ n2)
    (hv1 : n1.value = some val)
    (hlast : lookupLastValue (graphIn.nodes.drop 1) val = some n2)
    (hvin : val ∈ objIn) (hvout : val ∈ objOut) :
    ∃ d : NodeDicts, createNodeDict graphIn graphOut objIn objOut = .ok d ∧
      (∀ m ∈ graphOut.nodes.drop 1, m.value = some val → (m, n2) ∈ d.reverseNodeDict) ∧
      ((n2, (graphOut.nodes.drop 1).filter (fun m => decide (m.value = some val))) ∈
        d.nodeDict) ∧
      (n1 ∉ d.nodeDict.map Prod.fst) ∧
      (∀ p ∈ d.reverseNodeDict, p.2 ≠ n1) := by
  have hcomnd : (objIn.filter (fun o => decide (o ∈ objOut))).Nodup := hobj.filter _
  have hcompres : ∀ o ∈ objIn.filter (fun o => decide (o ∈ objOut)),
      (lookupLastValue (graphIn.nodes.drop 1) o).isSome = true := by
    intro o ho
    have hmem := List.mem_filter.mp ho
    have hoo : o ∈ objOut := by simpa using hmem.2
    exact (lookupLastValue_isSome _ o).mpr (hpres o hmem.1 hoo)
  have hvcom : val ∈ objIn.filter (fun o => decide (o ∈ objOut)) :=
    List.mem_filter.mpr ⟨hvin, by simpa using hvout⟩
  have hcne : createNodeDict graphIn graphOut objIn objOut =
      .ok ⟨loopPairs (graphIn.nodes.drop 1) (objIn.filter (fun o => decide (o ∈ objOut)))
            (graphOut.nodes.drop 1),
          loopRev (graphIn.nodes.drop 1) (objIn.filter (fun o => decide (o ∈ objOut)))
            (graphOut.nodes.drop 1)⟩ := by
    simp only [createNodeDict]
    rw [if_pos (by
      rw [List.all_eq_true]
      intro n hn
      simpa using hproper n hn)]
    exact createNodeDictLoop_closed _ _ [] [] _ hcompres
  refine ⟨_, hcne, ?_, ?_, ?_, ?_⟩
  · intro m hm hmv
    exact (loopRev_mem_iff _ _ hcomnd hcompres _ m n2).mpr ⟨val, hvcom, hlast, hm, hmv⟩
  · exact (loopPairs_mem_iff _ _ hcomnd hcompres _ n2 _).mpr ⟨val, hvcom, hlast, rfl⟩
  · intro hc
    obtain ⟨⟨pk, pl⟩, hp, hpn⟩ := List.mem_map.mp hc
    have hpk : pk = n1 := hpn
    subst hpk
    obtain ⟨o, _, hlk, _⟩ := (loopPairs_mem_iff _ _ hcomnd hcompres _ pk pl).mp hp
    have hm := lookupLastValue_mem _ o pk hlk
    have hov : o = val := by
      have hval := hm.2
      rw [hv1] at hval
      simpa using hval.symm
    subst hov
    rw [hlast] at hlk
    exact hne (Option.some.inj hlk).symm
  · intro p hp hpn1
    obtain ⟨pm, pk⟩ := p
    have hpk : pk = n1 := hpn1
    subst hpk
    obtain ⟨o, _, hlk, _, _⟩ := (loopRev_mem_iff _ _ hcomnd hcompres _ pm pk).mp hp
    have hm := lookupLastValue_mem _ o pk hlk
    have hov : o = val := by
      have hval := hm.2
      rw [hv1] at hval
      simpa using hval.symm
    subst hov
    rw [hlast] at hlk
    exact hne (Option.some.inj hlk).symm

/-- Witness for C10: an input pattern with the payload `a` on the two
distinct nodes 1 and 2 and the duplicating output pattern. -/
theorem C10_duplicate_payload_witness :
    ∃ d : NodeDicts, createNodeDict giDup goTwice ["a"] ["a"] = .ok d ∧
      (∀ m ∈ goTwice.nodes.drop 1, m.value = some "a" → (m, V.node 2 "a") ∈ d.reverseNodeDict) ∧
      ((V.node 2 "a", (goTwice.nodes.drop 1).filter
          (fun m => decide (m.value = some "a"))) ∈ d.nodeDict) ∧
      (V.node 1 "a" ∉ d.nodeDict.map Prod.fst) ∧
      (∀ p ∈ d.reverseNodeDict, p.2 ≠ V.node 1 "a") :=
  C10_duplicate_payload_last_wins giDup goTwice ["a"] ["a"]
    (by decide) (by decide) (by decide)
    (V.node 1 "a") (V.node 2 "a") "a"
    (by decide) (by decide) (by decide) (by decide) (by decide) (by decide)


theorem Pres_refl (g : Digraph) : Pres g g := fun _ hv => ⟨hv, rfl⟩

theorem Pres_trans {g1 g2 g3 : Digraph} (h12 : Pres g1 g2) (h23 : Pres g2 g3) :
    Pres g1 g3 := by
  intro v hv
  obtain ⟨hv2, he2⟩ := h23 v hv
  obtain ⟨hv1, he1⟩ := h12 v hv2
  exact ⟨hv1, he2.trans he1⟩

theorem filter_filter_of_imp {l : List Edge} {p q : Edge → Bool}
    (h : ∀ e ∈ l, p e = true → q e = true) : (l.filter q).filter p = l.filter p := by
  rw [List.filter_filter]
  refine List.filter_congr ?_
  intro e he
  cases hpe : p e with
  | false => simp [hpe]
  | true => simp [hpe, h e he hpe]

theorem outEdges_addEdge_ne (g : Digraph) (u w : V) (o : Int) (v : V) (hvu : v ≠ u) :
    (g.addEdge u w o).outEdges v = g.outEdges v := by
  simp only [Digraph.addEdge]
  rw [hasEdge_addNode, hasEdge_addNode]
  split
  · unfold Digraph.outEdges
    dsimp only
    rw [addNode_edges, addNode_edges]
    rw [filter_map_comm _ _ (fun e => by
      have hsrc : ((if decide (e.src = u) && decide (e.dst = w)
          then { e with order := o } else e) : Edge).src = e.src := by
        split <;> rfl
      rw [hsrc]) g.edges]
    refine (List.map_congr_left ?_).trans (List.map_id _)
    intro e he
    have hev : e.src = v := by
      have := (List.mem_filter.mp he).2
      simpa using this
    have hcond : ¬(decide (e.src = u) && decide (e.dst = w)) = true := by
      simp [hev, hvu]
    rw [if_neg hcond]
    rfl
  · unfold Digraph.outEdges
    dsimp only
    rw [addNode_edges, addNode_edges]
    rw [List.filter_append]
    have huv : ¬u = v := fun hc => hvu hc.symm
    have hnil : ([(⟨u, w, o⟩ : Edge)].filter (fun e => decide (e.src = v))) = [] := by
      simp [huv]
    rw [hnil, List.append_nil]

theorem Pres_addEdge (g : Digraph) (u w : V) (o : Int) : Pres g (g.addEdge u w o) := by
  intro v hv
  rw [addEdge_touched_append] at hv
  simp only [List.mem_append, List.mem_singleton, not_or] at hv
  exact ⟨hv.1, outEdges_addEdge_ne g u w o v hv.2⟩

theorem Pres_removeEdge {g g' : Digraph} {u w : V}
    (h : g.removeEdge u w = .ok g') : Pres g g' := by
  unfold Digraph.removeEdge at h
  split at h
  · cases h
    intro v hv
    simp only [List.mem_append, List.mem_singleton, not_or] at hv
    refine ⟨hv.1, ?_⟩
    unfold Digraph.outEdges
    dsimp only
    refine filter_filter_of_imp ?_
    intro e _ hp
    have hev : e.src = v := by simpa using hp
    simp [hev, hv.2]
  · exact absurd h (by simp)

theorem Pres_removeNode {g g' : Digraph} {w : V}
    (h : g.removeNode w = .ok g') : Pres g g' := by
  unfold Digraph.removeNode at h
  split at h
  · cases h
    intro v hv
    simp only [List.mem_append, not_or] at hv
    obtain ⟨hvt, hvinc⟩ := hv
    refine ⟨hvt, ?_⟩
    unfold Digraph.outEdges
    dsimp only
    refine filter_filter_of_imp ?_
    intro e he hp
    have hev : e.src = v := by simpa using hp
    by_contra hq
    have hinc : (decide (e.src = w) || decide (e.dst = w)) = true := by
      cases hx : (decide (e.src = w) || decide (e.dst = w)) with
      | true => rfl
      | false => exact absurd (by simp [hx]) hq
    have : v ∈ (g.edges.filter
        (fun e => decide (e.src = w) || decide (e.dst = w))).map (·.src) := by
      refine List.mem_map.mpr ⟨e, List.mem_filter.mpr ⟨he, hinc⟩, hev⟩
    exact hvinc this
  · exact absurd h (by simp)

theorem touched_addCopyEdges_mono (outs : List V) :
    ∀ (g : Digraph) (pre : V) (c : Int) (x : V),
      x ∈ g.touched → x ∈ (addCopyEdges g pre c outs).touched := by
  induction outs with
  | nil => intro g pre c x hx; exact hx
  | cons n rest ih =>
    intro g pre c x hx
    simp only [addCopyEdges]
    refine ih _ pre (c + 1) x ?_
    rw [addEdge_touched_append]
    exact List.mem_append_left _ hx

theorem pre_mem_touched_addCopyEdges (outs : List V) (h : outs ≠ []) :
    ∀ (g : Digraph) (pre : V) (c : Int), pre ∈ (addCopyEdges g pre c outs).touched := by
  cases outs with
  | nil => exact absurd rfl h
  | cons n rest =>
    intro g pre c
    simp only [addCopyEdges]
    refine touched_addCopyEdges_mono rest _ pre (c + 1) pre ?_
    rw [addEdge_touched_append]
    simp

theorem outEdges_addCopyEdges_ne (outs : List V) :
    ∀ (g : Digraph) (pre : V) (c : Int) (v : V), v ≠ pre →
      (addCopyEdges g pre c outs).outEdges v = g.outEdges v := by
  induction outs with
  | nil => intro g pre c v _; rfl
  | cons n rest ih =>
    intro g pre c v hv
    simp only [addCopyEdges]
    rw [ih _ pre (c + 1) v hv]
    exact outEdges_addEdge_ne g pre n c v hv

theorem shiftOrders_touched (g : Digraph) (pre : V) (c : Int) (k : Nat) :
    (shiftOrders g pre c k).touched = g.touched := rfl

theorem shiftEdge_of_src_ne (pre : V) (c : Int) (k : Nat) (e : Edge)
    (h : e.src ≠ pre) : shiftEdge pre c k e = e := by
  unfold shiftEdge
  rw [if_neg (by simp [h])]

theorem outEdges_shiftOrders_ne (g : Digraph) (pre : V) (c : Int) (k : Nat)
    (v : V) (hv : v ≠ pre) :
    (shiftOrders g pre c k).outEdges v = g.outEdges v := by
  unfold Digraph.outEdges shiftOrders
  dsimp only
  rw [filter_map_comm _ _ (fun e => by rw [shiftEdge_src]) g.edges]
  refine (List.map_congr_left ?_).trans (List.map_id _)
  intro e he
  have hev : e.src = v := by
    have := (List.mem_filter.mp he).2
    simpa using this
  exact shiftEdge_of_src_ne pre c k e (by rw [hev]; exact hv)

theorem Pres_reattachPredStep {ks : List V} {gn : V} {outs : List V}
    {g g' : Digraph} {pre : V} (hout : outs ≠ [])
    (h : reattachPredStep ks gn outs g pre = .ok g') : Pres g g' := by
  unfold reattachPredStep at h
  split at h
  · cases h; exact Pres_refl g
  · cases hge : g.getEdgeData pre gn with
    | none => rw [hge] at h; exact absurd h (by simp)
    | some c =>
      rw [hge] at h
      dsimp only at h
      cases h
      intro v hv
      have hpret : pre ∈ (addCopyEdges (shiftOrders g pre c outs.length) pre c outs).touched :=
        pre_mem_touched_addCopyEdges outs hout _ pre c
      have hvp : v ≠ pre := fun hc => hv (hc ▸ hpret)
      have hvt : v ∉ g.touched := by
        intro hc
        refine hv (touched_addCopyEdges_mono outs _ pre c v ?_)
        rw [shiftOrders_touched]
        exact hc
      refine ⟨hvt, ?_⟩
      rw [outEdges_addCopyEdges_ne outs _ pre c v hvp]
      exact outEdges_shiftOrders_ne g pre c outs.length v hvp

theorem Pres_reattachSuccStep (gn suc : V) :
    ∀ (outs : List V) (g g' : Digraph),
      reattachSuccStep gn g suc outs = .ok g' → Pres g g' := by
  intro outs
  induction outs with
  | nil => intro g g' h; cases h; exact Pres_refl g
  | cons n rest ih =>
    intro g g' h
    simp only [reattachSuccStep] at h
    cases hge : g.getEdgeData gn suc with
    | none => rw [hge] at h; exact absurd h (by simp)
    | some o =>
      rw [hge] at h
      dsimp only at h
      exact Pres_trans (Pres_addEdge g n suc o) (ih _ _ h)

theorem Pres_reattachPredLoop {ks : List V} {gn : V} {outs : List V} (hout : outs ≠ []) :
    ∀ (l : List V) (g g' : Digraph),
      reattachPredLoop ks gn outs l g = .ok g' → Pres g g' := by
  intro l
  induction l with
  | nil => intro g g' h; cases h; exact Pres_refl g
  | cons pre rest ih =>
    intro g g' h
    simp only [reattachPredLoop] at h
    cases hst : reattachPredStep ks gn outs g pre with
    | error e => rw [hst] at h; exact absurd h (by simp)
    | ok g2 =>
      rw [hst] at h
      dsimp only at h
      exact Pres_trans (Pres_reattachPredStep hout hst) (ih _ _ h)

theorem Pres_reattachSuccLoop {ks : List V} {gn : V} {outs : List V} :
    ∀ (l : List V) (g g' : Digraph),
      reattachSuccLoop ks gn outs l g = .ok g' → Pres g g' := by
  intro l
  induction l with
  | nil => intro g g' h; cases h; exact Pres_refl g
  | cons suc rest ih =>
    intro g g' h
    simp only [reattachSuccLoop] at h
    split at h
    · exact ih _ _ h
    · cases hst : reattachSuccStep gn g suc outs with
      | error e => rw [hst] at h; exact absurd h (by simp)
      | ok g2 =>
        rw [hst] at h
        dsimp only at h
        exact Pres_trans (Pres_reattachSuccStep gn suc outs g g2 hst) (ih _ _ h)

theorem alookupL_mem {cnd : List (V × List V)} {k : V} {l : List V}
    (h : alookupL cnd k = some l) : ∃ k2 : V, (k2, l) ∈ cnd := by
  unfold alookupL at h
  cases hf : cnd.find? (fun p => decide (p.1 = k)) with
  | none => rw [hf] at h; exact absurd h (by simp)
  | some p =>
    rw [hf] at h
    have hmem := List.mem_of_find?_eq_some hf
    refine ⟨p.1, ?_⟩
    have hl : p.2 = l := by simpa using h
    rw [← hl]
    exact hmem

theorem Pres_phase3Step {ks : List V} {cnd : List (V × List V)}
    (hcnd : ∀ p ∈ cnd, p.2 ≠ []) {g g' : Digraph} {gn : V}
    (h : phase3Step ks cnd g gn = .ok g') : Pres g g' := by
  unfold phase3Step at h
  cases hal : alookupL cnd gn with
  | some outs =>
    rw [hal] at h
    dsimp only at h
    have hout : outs ≠ [] := by
      obtain ⟨k2, hk2⟩ := alookupL_mem hal
      exact hcnd (k2, outs) hk2
    cases hp : g.predecessorsE gn with
    | error e => rw [hp] at h; exact absurd h (by simp)
    | ok preds =>
      rw [hp] at h
      dsimp only at h
      cases hpl : reattachPredLoop ks gn outs preds g with
      | error e => rw [hpl] at h; exact absurd h (by simp)
      | ok g2 =>
        rw [hpl] at h
        dsimp only at h
        cases hs : g2.successorsE gn with
        | error e => rw [hs] at h; exact absurd h (by simp)
        | ok succs =>
          rw [hs] at h
          dsimp only at h
          cases hsl : reattachSuccLoop ks gn outs succs g2 with
          | error e => rw [hsl] at h; exact absurd h (by simp)
          | ok g3 =>
            rw [hsl] at h
            dsimp only at h
            exact Pres_trans (Pres_reattachPredLoop hout preds g g2 hpl)
              (Pres_trans (Pres_reattachSuccLoop succs g2 g3 hsl) (Pres_removeNode h))
  | none =>
    rw [hal] at h
    dsimp only at h
    cases hod : g.outDegreeE gn with
    | error e => rw [hod] at h; exact absurd h (by simp)
    | ok od =>
      rw [hod] at h
      dsimp only at h
      split at h
      · cases hid : g.inDegreeE gn with
        | error e => rw [hid] at h; exact absurd h (by simp)
        | ok idg =>
          rw [hid] at h
          dsimp only at h
          split at h
          · exact Pres_removeNode h
          · cases hpr : g.predecessorsE gn with
            | error e => rw [hpr] at h; exact absurd h (by simp)
            | ok preds =>
              rw [hpr] at h
              dsimp only at h
              split at h
              · exact Pres_removeNode h
              · cases h; exact Pres_refl g
      · cases h; exact Pres_refl g

theorem Pres_phase3Loop {ks : List V} {cnd : List (V × List V)}
    (hcnd : ∀ p ∈ cnd, p.2 ≠ []) :
    ∀ (l : List V) (g g' : Digraph), phase3Loop ks cnd l g = .ok g' → Pres g g' := by
  intro l
  induction l with
  | nil => intro g g' h; cases h; exact Pres_refl g
  | cons gn rest ih =>
    intro g g' h
    simp only [phase3Loop] at h
    cases hst : phase3Step ks cnd g gn with
    | error e => rw [hst] at h; exact absurd h (by simp)
    | ok g2 =>
      rw [hst] at h
      dsimp only at h
      exact Pres_trans (Pres_phase3Step hcnd hst) (ih _ _ h)

theorem Pres_removeMappedEdgesLoop {t : List (V × V)}
    {rec : V → Digraph → Except PyError Digraph}
    (hrec : ∀ s g g', rec s g = .ok g' → Pres g g') (node : V) :
    ∀ (l : List V) (g g' : Digraph),
      removeMappedEdgesLoop t rec node l g = .ok g' → Pres g g' := by
  intro l
  induction l with
  | nil => intro g g' h; cases h; exact Pres_refl g
  | cons s rest ih =>
    intro g g' h
    simp only [removeMappedEdgesLoop] at h
    cases hn : alookup t node with
    | none => rw [hn] at h; exact absurd h (by simp)
    | some tn =>
      rw [hn] at h
      dsimp only at h
      cases hs : alookup t s with
      | none => rw [hs] at h; exact absurd h (by simp)
      | some ts =>
        rw [hs] at h
        dsimp only at h
        cases hre : g.removeEdge tn ts with
        | error e => rw [hre] at h; exact absurd h (by simp)
        | ok g2 =>
          rw [hre] at h
          dsimp only at h
          cases hrc : rec s g2 with
          | error e => rw [hrc] at h; exact absurd h (by simp)
          | ok g3 =>
            rw [hrc] at h
            dsimp only at h
            exact Pres_trans (Pres_removeEdge hre)
              (Pres_trans (hrec s g2 g3 hrc) (ih _ _ h))

theorem Pres_removeMappedEdgesRec {r : Rule} {t : List (V × V)} :
    ∀ (fuel : Nat) (node : V) (g g' : Digraph),
      removeMappedEdgesRec r t fuel node g = .ok g' → Pres g g' := by
  intro fuel
  induction fuel with
  | zero => intro node g g' h; exact absurd h (by simp [removeMappedEdgesRec])
  | succ n ih =>
    intro node g g' h
    simp only [removeMappedEdgesRec] at h
    exact Pres_removeMappedEdgesLoop (fun s g2 g3 hx => ih s g2 g3 hx) node _ g g' h

theorem Pres_phase1Loop {r : Rule} {t : List (V × V)} :
    ∀ (l : List V) (g g' : Digraph), phase1Loop r t l g = .ok g' → Pres g g' := by
  intro l
  induction l with
  | nil => intro g g' h; cases h; exact Pres_refl g
  | cons n rest ih =>
    intro g g' h
    simp only [phase1Loop] at h
    cases hrm : removeMappedEdgesRec r t (r.graphIn.nodes.length + 1) n g with
    | error e => rw [hrm] at h; exact absurd h (by simp)
    | ok g2 =>
      rw [hrm] at h
      dsimp only at h
      exact Pres_trans (Pres_removeMappedEdgesRec _ n g g2 hrm) (ih _ _ h)

theorem copyOutputNode_graph {r : Rule} {t : List (V × V)} {st : ApplySt} {node cp : V}
    {st1 : ApplySt} (h : copyOutputNode r t st node = .ok (cp, st1)) :
    st1.graph = st.graph := by
  unfold copyOutputNode at h
  cases hrv : alookup r.reverseNodeDict node with
  | some inNode =>
    rw [hrv] at h
    dsimp only at h
    cases htn : alookup t inNode with
    | none => rw [htn] at h; exact absurd h (by simp)
    | some target =>
      rw [htn] at h
      dsimp only at h
      cases hvv : target.value with
      | none => rw [hvv] at h; exact absurd h (by simp)
      | some tval =>
        rw [hvv] at h
        dsimp only at h
        cases h
        rfl
  | none =>
    rw [hrv] at h
    dsimp only at h
    cases hvv : node.value with
    | none => rw [hvv] at h; exact absurd h (by simp)
    | some nval =>
      rw [hvv] at h
      dsimp only at h
      cases h
      rfl

theorem appendToKey_nonempty {d : List (V × List V)} {k v : V}
    (hd : ∀ p ∈ d, p.2 ≠ []) : ∀ p ∈ appendToKey d k v, p.2 ≠ [] := by
  intro p hp
  unfold appendToKey at hp
  split at hp
  · obtain ⟨q, hq, hpq⟩ := List.mem_map.mp hp
    by_cases hqk : q.1 = k
    · rw [if_pos (by simpa using hqk)] at hpq
      rw [← hpq]
      simp
    · rw [if_neg (by simpa using hqk)] at hpq
      rw [← hpq]
      exact hd q hq
  · rcases List.mem_append.mp hp with hp | hp
    · exact hd p hp
    · simp only [List.mem_singleton] at hp
      rw [hp]
      simp

theorem copyOutputNode_cnd {r : Rule} {t : List (V × V)} {st : ApplySt} {node cp : V}
    {st1 : ApplySt} (h : copyOutputNode r t st node = .ok (cp, st1))
    (hd : ∀ p ∈ st.curNodeDict, p.2 ≠ []) : ∀ p ∈ st1.curNodeDict, p.2 ≠ [] := by
  unfold copyOutputNode at h
  cases hrv : alookup r.reverseNodeDict node with
  | some inNode =>
    rw [hrv] at h
    dsimp only at h
    cases htn : alookup t inNode with
    | none => rw [htn] at h; exact absurd h (by simp)
    | some target =>
      rw [htn] at h
      dsimp only at h
      cases hvv : target.value with
      | none => rw [hvv] at h; exact absurd h (by simp)
      | some tval =>
        rw [hvv] at h
        dsimp only at h
        cases h
        exact appendToKey_nonempty hd
  | none =>
    rw [hrv] at h
    dsimp only at h
    cases hvv : node.value with
    | none => rw [hvv] at h; exact absurd h (by simp)
    | some nval =>
      rw [hvv] at h
      dsimp only at h
      cases h
      exact hd

theorem addOutputGraphLoop_invariant {r : Rule} {t : List (V × V)}
    {rec : V → V → ApplySt → Except PyError ApplySt}
    (hrec : ∀ s sc st st', rec s sc st = .ok st' →
      (Pres st.graph st'.graph ∧
        ((∀ p ∈ st.curNodeDict, p.2 ≠ []) → ∀ p ∈ st'.curNodeDict, p.2 ≠ [])))
    (node nodeCopy : V) :
    ∀ (l : List V) (st st' : ApplySt),
      addOutputGraphLoop r t rec node nodeCopy l st = .ok st' →
      (Pres st.graph st'.graph ∧
        ((∀ p ∈ st.curNodeDict, p.2 ≠ []) → ∀ p ∈ st'.curNodeDict, p.2 ≠ [])) := by
  intro l
  induction l with
  | nil => intro st st' h; cases h; exact ⟨Pres_refl _, fun hd => hd⟩
  | cons s rest ih =>
    intro st st' h
    simp only [addOutputGraphLoop] at h
    cases hcp : copyOutputNode r t st s with
    | error e => rw [hcp] at h; exact absurd h (by simp)
    | ok pr =>
      rw [hcp] at h
      dsimp only at h
      obtain ⟨sCopy, st1⟩ := pr
      dsimp only at h
      cases hge : r.graphOut.getEdgeData node s with
      | none => rw [hge] at h; exact absurd h (by simp)
      | some o =>
        rw [hge] at h
        dsimp only at h
        cases hrc : rec s sCopy
            { st1 with graph := st1.graph.addEdge nodeCopy sCopy o } with
        | error e => rw [hrc] at h; exact absurd h (by simp)
        | ok st2 =>
          rw [hrc] at h
          dsimp only at h
          obtain ⟨hrp, hrd⟩ := hrec s sCopy _ _ hrc
          obtain ⟨hlp, hld⟩ := ih _ _ h
          have hg1 : st1.graph = st.graph := copyOutputNode_graph hcp
          refine ⟨?_, ?_⟩
          · refine Pres_trans ?_ (Pres_trans hrp hlp)
            rw [hg1]
            exact Pres_addEdge st.graph nodeCopy sCopy o
          · intro hd
            refine hld (hrd ?_)
            have hcd : ∀ p ∈ st1.curNodeDict, p.2 ≠ [] := copyOutputNode_cnd hcp hd
            exact hcd
  
theorem addOutputGraphRec_invariant {r : Rule} {t : List (V × V)} :
    ∀ (fuel : Nat) (node nodeCopy : V) (st st' : ApplySt),
      addOutputGraphRec r t fuel node nodeCopy st = .ok st' →
      (Pres st.graph st'.graph ∧
        ((∀ p ∈ st.curNodeDict, p.2 ≠ []) → ∀ p ∈ st'.curNodeDict, p.2 ≠ [])) := by
  intro fuel
  induction fuel with
  | zero => intro node nodeCopy st st' h; exact absurd h (by simp [addOutputGraphRec])
  | succ n ih =>
    intro node nodeCopy st st' h
    simp only [addOutputGraphRec] at h
    exact addOutputGraphLoop_invariant (fun s sc st2 st3 hx => ih s sc st2 st3 hx)
      node nodeCopy _ st st' h

theorem addOutputGraphTopLoop_invariant {r : Rule} {t : List (V × V)} :
    ∀ (l : List V) (st st' : ApplySt),
      addOutputGraphTopLoop r t l st = .ok st' →
      (Pres st.graph st'.graph ∧
        ((∀ p ∈ st.curNodeDict, p.2 ≠ []) → ∀ p ∈ st'.curNodeDict, p.2 ≠ [])) := by
  intro l
  induction l with
  | nil => intro st st' h; cases h; exact ⟨Pres_refl _, fun hd => hd⟩
  | cons nd rest ih =>
    intro st st' h
    simp only [addOutputGraphTopLoop] at h
    cases hcp : copyOutputNode r t st nd with
    | error e => rw [hcp] at h; exact absurd h (by simp)
    | ok pr =>
      rw [hcp] at h
      dsimp only at h
      obtain ⟨nodeCopy, st1⟩ := pr
      dsimp only at h
      cases hrc : addOutputGraphRec r t (r.graphOut.nodes.length + 1) nd nodeCopy
          (if (alookup r.reverseNodeDict nd).isSome then st1
           else { st1 with graph := st1.graph.addEdge V.root nodeCopy (-1) }) with
      | error e => rw [hrc] at h; exact absurd h (by simp)
      | ok st2 =>
        rw [hrc] at h
        dsimp only at h
        obtain ⟨hrp, hrd⟩ := addOutputGraphRec_invariant _ nd nodeCopy _ _ hrc
        obtain ⟨hlp, hld⟩ := ih _ _ h
        have hg1 : st1.graph = st.graph := copyOutputNode_graph hcp
        constructor
        · refine Pres_trans ?_ (Pres_trans hrp hlp)
          split
          · rw [hg1]; exact Pres_refl _
          · dsimp only
            rw [hg1]
            exact Pres_addEdge st.graph V.root nodeCopy (-1)
        · intro hd
          refine hld (hrd ?_)
          have hcd := copyOutputNode_cnd hcp hd
          split <;> exact hcd

theorem addOutputGraph_invariant {r : Rule} {t : List (V × V)} {st st' : ApplySt}
    (h : addOutputGraph r t st = .ok st') :
    Pres st.graph st'.graph ∧ ∀ p ∈ st'.curNodeDict, p.2 ≠ [] := by
  unfold addOutputGraph at h
  cases hs : r.graphOut.successorsE V.root with
  | error e => rw [hs] at h; exact absurd h (by simp)
  | ok succs =>
    rw [hs] at h
    dsimp only at h
    obtain ⟨hp, hd⟩ := addOutputGraphTopLoop_invariant succs _ st' h
    exact ⟨hp, hd (by simp)⟩

theorem Pres_applyRule {r : Rule} {g : Digraph} {t : List (V × V)} {c : Nat}
    {gF : Digraph} {ret : Option Digraph}
    (h : r.applyRule g t false c = .ok (gF, ret)) : Pres g gF := by
  simp only [Rule.applyRule] at h
  rw [if_neg (by simp)] at h
  cases hs : r.graphIn.successorsE V.root with
  | error e => rw [hs] at h; exact absurd h (by simp)
  | ok inSuccs =>
    rw [hs] at h
    dsimp only at h
    cases h1 : phase1Loop r t inSuccs g with
    | error e => rw [h1] at h; exact absurd h (by simp)
    | ok g2 =>
      rw [h1] at h
      dsimp only at h
      cases h2 : addOutputGraph r t ⟨g2, [], c⟩ with
      | error e => rw [h2] at h; exact absurd h (by simp)
      | ok st =>
        rw [h2] at h
        dsimp only at h
        cases h3 : phase3Loop (t.map (fun p => p.2)) st.curNodeDict
            (t.map (fun p => p.2)) st.graph with
        | error e => rw [h3] at h; exact absurd h (by simp)
        | ok gf2 =>
          rw [h3] at h
          dsimp only at h
          have hgf : gf2 = gF := ((Prod.mk.injEq _ _ _ _).mp (Except.ok.inj h)).1
          obtain ⟨hp2, hd2⟩ := addOutputGraph_invariant h2
          exact hgf ▸ Pres_trans (Pres_phase1Loop inSuccs g g2 h1)
            (Pres_trans hp2 (Pres_phase3Loop hd2 _ _ _ h3))

/-- C9: for every in-place `apply` call that completes and every vertex
`v` whose out-edge set the call did not touch — no edge was inserted,
updated or removed with `v` as its source, which the embedding records in
the `touched` log of the graph operations — the out-edge list of `v`,
`order` values included, is identical before and after the call, and
pairwise-distinct sibling orders remain pairwise distinct.  (The only
mutation not logged is the order shift of lines 145-147, and it is always
followed by edge insertions at the same source, so a vertex absent from
the log kept its out-edges verbatim.) -/
theorem C9_untouched_out_edges_identical (r : Rule) (g : Digraph)
    (transform : List (V × V)) (counter : Nat) (gF : Digraph) (ret : Option Digraph)
    (happ : r.applyRule g transform false counter = .ok (gF, ret)) (v : V)
    (hv : v ∉ gF.touched) :
    gF.outEdges v = g.outEdges v ∧
      (((g.outEdges v).map Edge.order).Nodup →
        ((gF.outEdges v).map Edge.order).Nodup) := by
  obtain ⟨_, he⟩ := Pres_applyRule happ v hv
  exact ⟨he, fun hnd => by rw [he]; exact hnd⟩

/-- Witness for C9: the trivial rule applied to `gZW` completes without
touching the vertex `z`, whose out-edge `z -7-> w` survives verbatim. -/
theorem C9_untouched_witness :
    gZW.outEdges (V.node 1 "z") = gZW.outEdges (V.node 1 "z") ∧
      (((gZW.outEdges (V.node 1 "z")).map Edge.order).Nodup →
        ((gZW.outEdges (V.node 1 "z")).map Edge.order).Nodup) :=
  C9_untouched_out_edges_identical ruleTrivial gZW [] 100 gZW none (by decide)
    (V.node 1 "z") (by decide)

end Pymeleon
